import Mathlib

set_option maxHeartbeats 1000000

/-! Formal model of the agentic RAG core of agentic_rag_sports.py: the
    sliding-window chunker, the hybrid retriever (score merge and MMR
    diversification), the index store round trip, the planner, the
    reflector and the agent loop.  Text is modelled as List Char, scores
    as rationals.  Each section names the Python function it embeds. -/

/-- Characters treated as whitespace by the normalization steps: models the
    ASCII part of the regex class backslash-s and of str.strip / str.split. -/
def isWs (c : Char) : Bool :=
  c = ' ' || c = '\t' || c = '\n' || c = '\r' || c = '\x0b' || c = '\x0c'

/-- ASCII lowercasing of one character (models str.lower on ASCII input). -/
def low (c : Char) : Char :=
  if 'A' ≤ c ∧ c ≤ 'Z' then Char.ofNat (c.toNat + 32) else c

/-- Lowercase a character list (models str.lower). -/
def lowAll (s : List Char) : List Char := s.map low

/-- Character list of a string literal. -/
def lc (s : String) : List Char := s.toList

/-- Decides whether p occurs as a contiguous segment of s (Python `p in s`). -/
def subSeg (p : List Char) : List Char → Bool
  | [] => p.isEmpty
  | c :: rest => p.isPrefixOf (c :: rest) || subSeg p rest

/-- Last element of a list, if any. -/
def lastOpt {α : Type} : List α → Option α
  | [] => none
  | [x] => some x
  | _ :: y :: ys => lastOpt (y :: ys)

/-- Collapse of each maximal whitespace run into a single space: models
    re.sub of the pattern backslash-s-plus with a single space. -/
def squeeze : List Char → List Char
  | [] => []
  | c :: rest =>
    if isWs c then
      match rest with
      | [] => [' ']
      | d :: ds => if isWs d then squeeze (d :: ds) else ' ' :: squeeze (d :: ds)
    else c :: squeeze rest

/-- Drop of leading whitespace (left half of str.strip). -/
def lstrip (s : List Char) : List Char := s.dropWhile (fun c => isWs c)

/-- Python str.strip: drop whitespace from both ends. -/
def pyStrip (s : List Char) : List Char :=
  ((lstrip s).reverse.dropWhile (fun c => isWs c)).reverse

/-- Whitespace tokenization, models str.split with no separator argument. -/
def pySplitGo (cur : List Char) : List Char → List (List Char)
  | [] => if cur.isEmpty then [] else [cur.reverse]
  | c :: rest =>
    if isWs c then
      if cur.isEmpty then pySplitGo [] rest else cur.reverse :: pySplitGo [] rest
    else pySplitGo (c :: cur) rest

/-- Python str.split() on whitespace. -/
def pySplit (s : List Char) : List (List Char) := pySplitGo [] s

/-- Order-preserving deduplication keeping first occurrences: models
    list(dict.fromkeys(xs)). -/
def dedupFirst {α : Type} [DecidableEq α] (seen : List α) : List α → List α
  | [] => []
  | x :: xs => if x ∈ seen then dedupFirst seen xs else x :: dedupFirst (x :: seen) xs

/-- Stable insertion of x into a descending-sorted list (helper of sortDesc). -/
def insDesc {α : Type} (key : α → ℚ) (x : α) : List α → List α
  | [] => [x]
  | y :: ys => if key x ≥ key y then x :: y :: ys else y :: insDesc key x ys

/-- Stable descending sort by a rational key: models Python
    sorted(xs, key=key, reverse=True), which is a stable sort, so any stable
    descending sort produces the identical output list. -/
def sortDesc {α : Type} (key : α → ℚ) : List α → List α
  | [] => []
  | x :: xs => insDesc key x (sortDesc key xs)

/-- Maximum of a list of rationals, 0 on the empty list (the code only
    evaluates Python max on nonempty generators). -/
def maxList : List ℚ → ℚ
  | [] => 0
  | [x] => x
  | x :: y :: ys => max x (maxList (y :: ys))

/-- Intercalation with a single newline: models a join with a newline string. -/
def joinNl : List (List Char) → List Char
  | [] => []
  | [l] => l
  | l :: m :: ls => l ++ '\n' :: joinNl (m :: ls)

/-- Intercalation with a single space: models a join with a space string. -/
def joinSp : List (List Char) → List Char
  | [] => []
  | [l] => l
  | l :: m :: ls => l ++ ' ' :: joinSp (m :: ls)

/-! Data model.  A chunk metadata dict carries the keys the core reads:
    filename, sport (category tag), section, page.  Absent keys are the
    empty string, matching dict.get with an empty-string default. -/

structure ChunkMeta where
  filename : List Char
  sport : List Char
  sectionName : List Char
  page : List Char
deriving DecidableEq

/-- Record shape {id, text, meta} stored in meta.json / bm25.json and used
    as the document payload of retrieval hits. -/
structure Doc where
  id : List Char
  text : List Char
  meta : ChunkMeta
deriving DecidableEq

/-- The KBChunk dataclass of the source. -/
structure KBChunk where
  id : List Char
  text : List Char
  meta : ChunkMeta
deriving DecidableEq

/-- Scored retrieval candidate: the {"score": s, "doc": m} dict of search. -/
structure Scored where
  score : ℚ
  doc : Doc
deriving DecidableEq

/-! Chunker, from sliding_window_chunks (source lines 40-50).  The loop is
    viewed through the remaining suffix of the text: position i of the
    Python loop corresponds to the suffix txt.drop i, the loop guard
    i < len(txt) to that suffix being nonempty, and the step
    i += (chunk_size - overlap) to dropping step characters.  The fuel
    argument dominates the iteration count; the wrapper passes the text
    length, which suffices whenever step ≥ 1, i.e. overlap < size. -/

def chunkGo (size step : ℕ) : ℕ → List Char → List (List Char)
  | _, [] => []
  | 0, _ :: _ => []
  | fuel + 1, c :: rest =>
    (c :: rest).take size ::
      (if (c :: rest).length ≤ step then []
       else chunkGo size step fuel ((c :: rest).drop step))

/-- Text normalization of sliding_window_chunks: re.sub of whitespace runs
    with a space, then str.strip. -/
def chunkNorm (txt : List Char) : List Char := pyStrip (squeeze txt)

/-- Model of sliding_window_chunks for a valid configuration
    (overlap < size, so the Python step chunk_size - overlap is the natural
    number size - step and the loop advances).  For overlap ≥ size the
    Python loop never advances; that behaviour is modelled by loopPos below. -/
def sliding_window_chunks (txt : List Char) (size overlap : ℕ) : List (List Char) :=
  chunkGo size (size - overlap) (chunkNorm txt).length (chunkNorm txt)

/-- De-overlapped concatenation: the first chunk followed by every later
    chunk stripped of its first overlap characters. -/
def deOverlap (overlap : ℕ) : List (List Char) → List Char
  | [] => []
  | c :: cs => c ++ (cs.map (fun k => k.drop overlap)).flatten

/-- Ceiling division on naturals. -/
def ceilDiv (a b : ℕ) : ℕ := (a + b - 1) / b

/-- Position of the chunker loop index i after n iterations, over the
    integers exactly as in Python: i starts at 0 and each iteration adds
    chunk_size - overlap (which is ≤ 0 when overlap ≥ size). -/
def loopPos (size overlap : ℤ) : ℕ → ℤ
  | 0 => 0
  | n + 1 => loopPos size overlap n + (size - overlap)

/-- The chunker loop on a text of length len runs forever: the text is
    nonempty and no iteration count brings the loop index to the break
    condition i ≥ len (equivalently the while guard i < len never fails). -/
def chunkLoopHangs (size overlap len : ℤ) : Prop :=
  0 < len ∧ ∀ n : ℕ, loopPos size overlap n < len

/-! Index store, from build_or_load_indexes (source lines 116-216). -/

/-- Records written to meta.json: one {id, text, meta} per chunk, in chunk
    order (source line 205). -/
def mkMetaRecs (chunks : List KBChunk) : List Doc :=
  chunks.map (fun c => { id := c.id, text := c.text, meta := c.meta })

/-- Records written to bm25.json, built by the identical comprehension
    (source line 210). -/
def mkBm25Recs (chunks : List KBChunk) : List Doc :=
  chunks.map (fun c => { id := c.id, text := c.text, meta := c.meta })

/-- The three persisted artifacts: meta.json records, the vector index rows
    (in insertion order), and bm25.json records.  Serialization by json and
    faiss is modelled as the identity on these values. -/
structure SnapshotArtifacts where
  metaRecs : List Doc
  vecRows : List (List ℚ)
  bm25Recs : List Doc
deriving DecidableEq

/-- In-memory state reconstructed by a load: the meta list, the vector
    rows, and the tokenized BM25 corpus built by splitting each bm25.json
    record text on whitespace (source line 135). -/
structure LoadedState where
  metaRecs : List Doc
  vecRows : List (List ℚ)
  bm25Corpus : List (List (List Char))
deriving DecidableEq

/-- Save path of build_or_load_indexes: writes meta.json and bm25.json from
    the chunk list and the vector index rows X (source lines 205-213). -/
def saveArtifacts (chunks : List KBChunk) (x : List (List ℚ)) : SnapshotArtifacts :=
  { metaRecs := mkMetaRecs chunks, vecRows := x, bm25Recs := mkBm25Recs chunks }

/-- In-memory BM25 corpus used right after a build: the same tokenization
    of the bm25 records (source line 211). -/
def builtCorpus (chunks : List KBChunk) : List (List (List Char)) :=
  (mkBm25Recs chunks).map (fun d => pySplit d.text)

/-- Load path of build_or_load_indexes (source lines 128-137): an empty
    persisted meta list is treated as absent and triggers a rebuild. -/
def loadArtifacts (a : SnapshotArtifacts) : Option LoadedState :=
  if a.metaRecs = [] then none
  else some { metaRecs := a.metaRecs, vecRows := a.vecRows,
              bm25Corpus := a.bm25Recs.map (fun d => pySplit d.text) }

/-! Hybrid retriever, from search (source lines 219-255).  The embedding
    encoder, the faiss index and rapidfuzz are external collaborators: the
    vector search result arrives as a list of (score, row) pairs, the BM25
    scores as one rational per corpus row, and the fuzzy partial-ratio as a
    function parameter simF returning a value in [0, 100]. -/

/-- Merge step of search (source lines 233-238): Python dict insertion
    order keyed by chunk id, replacing score and doc when the incoming
    score is strictly larger.  upsert processes one hit against the
    accumulated ordered map. -/
def upsert (h : Scored) : List Scored → List Scored
  | [] => [h]
  | e :: es =>
    if e.doc.id = h.doc.id then
      (if h.score > e.score then h :: es else e :: es)
    else e :: upsert h es

/-- Fold of upsert over all vector and lexical hits: merged dict values in
    first-insertion key order, as produced by list(merged.values()). -/
def mergeById (hits : List Scored) : List Scored :=
  hits.foldl (fun acc h => upsert h acc) []

/-- Similarity of a candidate text to the already selected texts (source
    line 248): maximum fuzzy partial ratio over selected texts divided by
    100, and 0.0 while nothing is selected (line 246). -/
def simTo (simF : List Char → List Char → ℚ) (t : List Char)
    (selTexts : List (List Char)) : ℚ :=
  if selTexts.isEmpty then 0 else maxList (selTexts.map (fun st => simF t st)) / 100

/-- MMR gain of a candidate (source line 249). -/
def mmrGain (lam : ℚ) (simF : List Char → List Char → ℚ)
    (selTexts : List (List Char)) (c : Scored) : ℚ :=
  lam * c.score - (1 - lam) * simTo simF c.doc.text selTexts

/-- Inner fold of the best-candidate scan (source lines 244-251): carries
    the running best and its gain, starting from None and -1e9, replacing
    on strict improvement. -/
def pickBestAux (gainOf : Scored → ℚ) :
    List Scored → Option Scored × ℚ → Option Scored × ℚ
  | [], acc => acc
  | c :: cs, (b, g) =>
    if gainOf c > g then pickBestAux gainOf cs (some c, gainOf c)
    else pickBestAux gainOf cs (b, g)

/-- Best candidate of one MMR round, None when every gain is ≤ -1e9. -/
def pickBest (gainOf : Scored → ℚ) (cands : List Scored) : Option Scored :=
  (pickBestAux gainOf cands (none, -(10 ^ 9))).1

/-- MMR selection loop (source lines 242-254).  Each round removes the
    first list element equal to the chosen candidate (list.remove) and
    appends its text to selected_texts.  Fuel dominates the iteration
    count; the wrapper passes the candidate count, which suffices because
    every round removes one candidate.  A None pick (unreachable for the
    score ranges established in the theorems below) ends the loop. -/
def mmrAux (lam : ℚ) (simF : List Char → List Char → ℚ) (k : ℕ) :
    ℕ → List Scored → List (List Char) → ℕ → List Doc
  | 0, _, _, _ => []
  | fuel + 1, cands, selTexts, selCount =>
    if cands.isEmpty || ¬ selCount < k then []
    else
      match pickBest (mmrGain lam simF selTexts) cands with
      | none => []
      | some b =>
        b.doc :: mmrAux lam simF k fuel (cands.erase b)
          (selTexts ++ [b.doc.text]) (selCount + 1)

/-- MMR diversification of a candidate list down to at most k results. -/
def mmr (lam : ℚ) (simF : List Char → List Char → ℚ) (k : ℕ)
    (cands : List Scored) : List Doc :=
  mmrAux lam simF k cands.length cands [] 0

/-- Vector hit list of search (source lines 221-224): the external index
    returns (score, row) pairs; the comprehension reads at most
    top_k * 5 of them and resolves each row in the meta list. -/
def vecHitsOf (top_k : ℕ) (meta : List Doc) (vecRaw : List (ℚ × ℕ)) : List Scored :=
  (vecRaw.take (top_k * 5)).map
    (fun p => { score := p.1, doc := meta.getD p.2 { id := [], text := [], meta := { filename := [], sport := [], sectionName := [], page := [] } } })

/-- Lexical hit list of search (source lines 227-231): every corpus row is
    scored, the pairs are sorted by score descending (Python sorted, a
    stable sort) and the top top_k * 5 kept. -/
def lexHitsOf (top_k : ℕ) (scores : List ℚ) (bm25Data : List Doc) : List Scored :=
  ((sortDesc (fun e => e.score)
      ((scores.zip bm25Data).map (fun p => { score := p.1, doc := p.2 }))).take (top_k * 5))

/-- Hybrid search (source lines 219-255): vector and lexical candidates,
    merged by chunk id keeping the larger score, then MMR-diversified. -/
def search (lam : ℚ) (simF : List Char → List Char → ℚ) (top_k : ℕ)
    (meta : List Doc) (vecRaw : List (ℚ × ℕ)) (scores : List ℚ)
    (bm25Data : List Doc) : List Doc :=
  mmr lam simF top_k (mergeById (vecHitsOf top_k meta vecRaw ++ lexHitsOf top_k scores bm25Data))

/-! Agent loop, from plan / reflect / synthesize_answer / agentic_answer
    (source lines 269-328).  The retriever is abstracted as a function
    from a query to the hit list it returns. -/

/-- Planner (source lines 269-279). -/
def plan (query : List Char) : List (List Char) :=
  let q := lowAll query
  let subs :=
    (if subSeg (lc ("angle")) q || subSeg (lc ("arc")) q then
      [query, lc ("release angle and entry angle guidance for shots and finishes")]
     else [])
    ++ (if subSeg (lc ("form")) q || subSeg (lc ("technique")) q then
      [lc ("form and technique cues")]
     else [])
  let subs2 := if subs.isEmpty then [query] else subs
  dedupFirst [] subs2

/-- Reflector (source lines 281-288): issues in source order, and the ok
    flag that is true exactly when no issue was recorded. -/
def reflect (draft : List Char) (evidences : List Doc) : Bool × List (List Char) :=
  let combined := lowAll (joinSp (evidences.map (fun e => e.text)))
  let issues :=
    (if subSeg (lc ("angle")) (lowAll draft) && ! subSeg (lc ("angle")) combined then
      [lc ("Angles mentioned but not grounded; retrieve angle-specific chunks.")]
     else [])
    ++ (if evidences.length = 0 then [lc ("No evidence retrieved.")] else [])
  (issues.isEmpty, issues)

/-- Citation string of one evidence line (source line 298). -/
def citeOf (ev : Doc) : List Char :=
  lc ("(") ++ ev.meta.filename
    ++ (if ev.meta.sectionName.isEmpty then [] else lc (" • ") ++ ev.meta.sectionName)
    ++ (if ev.meta.page.isEmpty then [] else lc (" • p.") ++ ev.meta.page)
    ++ lc (")")

/-- Snippet of one evidence line (source lines 299-300): str.strip then
    whitespace-run collapse. -/
def snippetOf (ev : Doc) : List Char := squeeze (pyStrip ev.text)

/-- One rendered evidence line (source line 301). -/
def evLine (ev : Doc) : List Char :=
  lc ("- ") ++ snippetOf ev ++ lc ("  \n  _Source:_ ") ++ citeOf ev

/-- Draft synthesis (source lines 290-304): header, blank line, one line
    per evidence among the first four, blank line, footer, joined by
    newlines.  The query parameter is unused by the source body. -/
def synthesize_answer (query : List Char) (evidences : List Doc) : List Char :=
  joinNl ([lc ("**Answer (Agentic RAG):**"), []]
    ++ (evidences.take 4).map evLine
    ++ [[], lc ("_Synthesis grounded in retrieved KB passages._")])

/-- Keyword bonus of the per-subgoal re-rank (source lines 312-317). -/
def bias (h : Doc) : ℚ :=
  let s := lowAll h.text
  (if subSeg (lc ("angle")) s || subSeg (lc ("arc")) s || subSeg (lc ("entry")) s
      || subSeg (lc ("release")) s then 1 else 0)
  + (if subSeg (lc ("form")) s || subSeg (lc ("technique")) s || subSeg (lc ("mechanics")) s
      || subSeg (lc ("finishing")) s then 1 / 2 else 0)

/-- Hits kept for one subgoal (source line 318): stable descending sort by
    bias, truncated to three. -/
def keptFor (retrieve : List Char → List Doc) (sg : List Char) : List Doc :=
  (sortDesc bias (retrieve sg)).take 3

/-- Agent loop state labels of the specification state machine. -/
inductive AgentPhase where
  | planningS
  | retrievingS
  | synthesizingS
  | reflectingS
  | refiningS
  | doneS
deriving DecidableEq

/-- Full record of one agentic_answer run (source lines 306-328). -/
structure AgentRun where
  subgoals : List (List Char)
  preCollected : List Doc
  firstDraft : List Char
  ok : Bool
  issues : List (List Char)
  refinedQuery : List Char
  refined : Bool
  collected : List Doc
  draft : List Char
  events : List AgentPhase

/-- Agentic answer pipeline (source lines 306-328) with an explicit event
    trace: plan, one retrieval per subgoal with the bias re-rank and top-3
    cut, synthesis from the collected evidence, one reflection, and - only
    when reflection found issues - a single refinement retrieval with the
    query extended by the issue texts, followed by the final synthesis. -/
def agenticRun (retrieve : List Char → List Doc) (query : List Char) : AgentRun :=
  let subgoals := plan query
  let preCollected := subgoals.flatMap (fun sg => keptFor retrieve sg)
  let firstDraft := synthesize_answer query preCollected
  let r := reflect firstDraft preCollected
  let refinedQuery := query ++ ' ' :: joinSp r.2
  let collected := if r.1 then preCollected else preCollected ++ retrieve refinedQuery
  { subgoals := subgoals
    preCollected := preCollected
    firstDraft := firstDraft
    ok := r.1
    issues := r.2
    refinedQuery := refinedQuery
    refined := ! r.1
    collected := collected
    draft := if r.1 then firstDraft else synthesize_answer query collected
    events := [AgentPhase.planningS]
      ++ subgoals.map (fun _ => AgentPhase.retrievingS)
      ++ [AgentPhase.synthesizingS, AgentPhase.reflectingS]
      ++ (if r.1 then [AgentPhase.doneS]
          else [AgentPhase.refiningS, AgentPhase.synthesizingS, AgentPhase.doneS]) }

/-- Final draft of agentic_answer. -/
def agentic_answer (retrieve : List Char → List Doc) (query : List Char) : List Char :=
  (agenticRun retrieve query).draft

/-- Entries of a hit list carrying a given chunk id. -/
def withId (i : List Char) (l : List Scored) : List Scored :=
  l.filter (fun e => decide (e.doc.id = i))

/-- Ids of a hit list, in order. -/
def idsOf (l : List Scored) : List (List Char) := l.map (fun e => e.doc.id)

/-- Empty metadata record (all keys absent). -/
def emptyMeta : ChunkMeta :=
  { filename := [], sport := [], sectionName := [], page := [] }

/-- Running first-maximum: the element kept by a fold that replaces the
    current best only on a strictly larger key, seeded with x. -/
def firstMaxBy {α : Type} (key : α → ℚ) (x : α) : List α → α
  | [] => x
  | y :: ys => if key y > key x then firstMaxBy key y ys else firstMaxBy key x ys

/-- Trace of the MMR selection loop: for every round, the chosen candidate,
    the candidate pool at that moment, and the selected texts so far.  The
    recursion mirrors mmrAux on source lines 242-254. -/
def mmrTraceAux (lam : ℚ) (simF : List Char → List Char → ℚ) (k : ℕ) :
    ℕ → List Scored → List (List Char) → ℕ
      → List (Scored × List Scored × List (List Char))
  | 0, _, _, _ => []
  | fuel + 1, cands, selTexts, selCount =>
    if cands.isEmpty || ¬ selCount < k then []
    else
      match pickBest (mmrGain lam simF selTexts) cands with
      | none => []
      | some b =>
        (b, cands, selTexts) :: mmrTraceAux lam simF k fuel (cands.erase b)
          (selTexts ++ [b.doc.text]) (selCount + 1)

/-- Trace of one full MMR run. -/
def mmrTrace (lam : ℚ) (simF : List Char → List Char → ℚ) (k : ℕ)
    (cands : List Scored) : List (Scored × List Scored × List (List Char)) :=
  mmrTraceAux lam simF k cands.length cands [] 0

/-- Two concrete scored candidates used by witnesses. -/
def sampleCands : List Scored :=
  [{ score := 1, doc := { id := lc ("a"), text := lc ("t1"), meta := emptyMeta } },
   { score := 2, doc := { id := lc ("b"), text := lc ("t2"), meta := emptyMeta } }]

/-- Concrete two-chunk corpus documents used by witnesses. -/
def docA : Doc := { id := lc ("cA"), text := lc ("entry angle tips"), meta := emptyMeta }

/-- Second concrete corpus document. -/
def docB : Doc := { id := lc ("cB"), text := lc ("passing drills"), meta := emptyMeta }

/-- Concrete angle-free evidence document used by the C10 witness. -/
def docW : Doc :=
  { id := lc ("w1"), text := lc ("Bend your knees and follow through"),
    meta := { filename := lc ("drills.pdf"), sport := lc ("basketball"),
              sectionName := lc ("Basics"), page := lc ("2") } }

/-- Relevance assignment of the re-rank counterexample: the merged hybrid
    scores the search computes for the two corpus documents before MMR
    (docB comes from the vector row scored 9, docA from the row scored 1). -/
def relCE (d : Doc) : ℚ := if d = docB then 9 else if d = docA then 1 else 0

/-- Re-rank written from the words of the specification, for comparison
    with keptFor from the source: the keyword bonus added to the hit's
    relevance is the sort key, descending and stable, cut to three. -/
def claimedKeptFor (rel : Doc → ℚ) (hits : List Doc) : List Doc :=
  (sortDesc (fun h => rel h + bias h) hits).take 3

/-! Theorems.  Shared lemmas come first, then one theorem per claim. -/

/-- The loop index never moves forward when overlap ≥ size. -/
theorem loopPos_nonpos (size overlap : ℤ) (h : size ≤ overlap) :
    ∀ n : ℕ, loopPos size overlap n ≤ 0 := by
  intro n
  induction n with
  | zero => simp [loopPos]
  | succ m ih =>
    have hstep : size - overlap ≤ 0 := by omega
    simp only [loopPos]
    omega

/-- Claim C2, code side (code_bug): with chunk_size = 2 and overlap = 3 on a
    normalized text of length 2, the chunker loop of sliding_window_chunks
    never reaches its exit condition: no configuration error is raised and
    the loop runs forever. -/
theorem chunker_invalid_overlap_hangs : chunkLoopHangs 2 3 2 := by
  refine ⟨by norm_num, ?_⟩
  intro n
  have := loopPos_nonpos 2 3 (by norm_num) n
  omega

/-- Claim C7 (confirmed): loading a just-saved snapshot reproduces the
    in-memory state exactly: the loaded chunk records, vector rows and
    tokenized BM25 corpus equal the pre-save in-memory ones (so any vector
    search over the rows and any lexical scoring over the corpus coincide
    for every query), and the meta.json and bm25.json artifacts carry the
    chunks in the identical row order. -/
theorem load_after_save_roundtrip (chunks : List KBChunk) (x : List (List ℚ))
    (hne : chunks ≠ []) :
    loadArtifacts (saveArtifacts chunks x)
      = some { metaRecs := mkMetaRecs chunks, vecRows := x,
               bm25Corpus := builtCorpus chunks }
    ∧ mkMetaRecs chunks = mkBm25Recs chunks := by
  have hne2 : mkMetaRecs chunks ≠ [] := by
    simp only [mkMetaRecs, ne_eq, List.map_eq_nil_iff]
    exact hne
  constructor
  · simp [loadArtifacts, saveArtifacts, builtCorpus, hne2]
  · rfl

/-- Witness for load_after_save_roundtrip at a concrete one-chunk corpus. -/
theorem load_after_save_roundtrip_witness :
    loadArtifacts (saveArtifacts
        [{ id := lc ("c1"), text := lc ("entry angle drill"),
           meta := { filename := lc ("a.pdf"), sport := lc ("sports"),
                     sectionName := [], page := [] } }] [[1, 0]])
      = some { metaRecs := mkMetaRecs
                 [{ id := lc ("c1"), text := lc ("entry angle drill"),
                    meta := { filename := lc ("a.pdf"), sport := lc ("sports"),
                              sectionName := [], page := [] } }],
               vecRows := [[1, 0]],
               bm25Corpus := builtCorpus
                 [{ id := lc ("c1"), text := lc ("entry angle drill"),
                    meta := { filename := lc ("a.pdf"), sport := lc ("sports"),
                              sectionName := [], page := [] } }] }
      ∧ mkMetaRecs
          [{ id := lc ("c1"), text := lc ("entry angle drill"),
             meta := { filename := lc ("a.pdf"), sport := lc ("sports"),
                       sectionName := [], page := [] } }]
        = mkBm25Recs
            [{ id := lc ("c1"), text := lc ("entry angle drill"),
               meta := { filename := lc ("a.pdf"), sport := lc ("sports"),
                         sectionName := [], page := [] } }] :=
  load_after_save_roundtrip _ _ (by decide)

/-- Elements produced by dedupFirst avoid the seen accumulator. -/
theorem dedupFirst_not_mem_seen {α : Type} [DecidableEq α] :
    ∀ (seen l : List α) (x : α), x ∈ dedupFirst seen l → x ∉ seen := by
  intro seen l
  induction l generalizing seen with
  | nil => intro x hx; simp [dedupFirst] at hx
  | cons y ys ih =>
    intro x hx
    by_cases hy : y ∈ seen
    · exact ih seen x (by simpa [dedupFirst, hy] using hx)
    · simp only [dedupFirst, if_neg hy, List.mem_cons] at hx
      rcases hx with rfl | hx
      · exact hy
      · have h2 := ih (y :: seen) x hx
        intro hs
        exact h2 (List.mem_cons_of_mem y hs)

/-- Output of dedupFirst contains no duplicates. -/
theorem dedupFirst_nodup {α : Type} [DecidableEq α] :
    ∀ (seen l : List α), (dedupFirst seen l).Nodup := by
  intro seen l
  induction l generalizing seen with
  | nil => simp [dedupFirst]
  | cons y ys ih =>
    by_cases hy : y ∈ seen
    · simpa [dedupFirst, hy] using ih seen
    · simp only [dedupFirst, if_neg hy, List.nodup_cons]
      refine ⟨fun hmem => ?_, ih (y :: seen)⟩
      exact dedupFirst_not_mem_seen (y :: seen) ys y hmem (List.mem_cons_self y seen)

/-- Claim C1, counterexample: on the query "form" the planner returns only
    the fixed technique subgoal; the original query is neither first nor
    even a member of the subgoal list. -/
theorem plan_form_query_dropped :
    (plan (lc ("form"))).head? ≠ some (lc ("form"))
      ∧ ¬ lc ("form") ∈ plan (lc ("form")) := by
  constructor
  · decide
  · decide

/-- Claim C1 as amended (corrected): plan always returns a nonempty,
    deduplicated (first occurrences, order preserved) subgoal list; the
    original query is its first element whenever the lowercased query
    contains angle or arc, or triggers no keyword rule at all; when only
    the form/technique rule fires, the list is exactly the fixed technique
    subgoal and the original query is omitted. -/
theorem plan_ordered_dedup_first (query : List Char) :
    (plan query).Nodup
    ∧ plan query ≠ []
    ∧ ((subSeg (lc ("angle")) (lowAll query) || subSeg (lc ("arc")) (lowAll query)) = true
        ∨ (subSeg (lc ("form")) (lowAll query) = false
            ∧ subSeg (lc ("technique")) (lowAll query) = false)
        → (plan query).head? = some query)
    ∧ ((subSeg (lc ("angle")) (lowAll query) || subSeg (lc ("arc")) (lowAll query)) = false
        ∧ (subSeg (lc ("form")) (lowAll query) || subSeg (lc ("technique")) (lowAll query)) = true
        → plan query = [lc ("form and technique cues")]) := by
  by_cases b1 : (subSeg (lc ("angle")) (lowAll query) || subSeg (lc ("arc")) (lowAll query)) = true
  · refine ⟨?_, ?_, ?_, ?_⟩
    · simp only [plan]
      exact dedupFirst_nodup _ _
    · simp [plan, b1, dedupFirst]
    · intro _
      simp [plan, b1, dedupFirst]
    · intro h
      rw [h.1] at b1
      simp at b1
  · rw [Bool.not_eq_true] at b1
    by_cases b2 : (subSeg (lc ("form")) (lowAll query) || subSeg (lc ("technique")) (lowAll query)) = true
    · have hplan : plan query = [lc ("form and technique cues")] := by
        simp [plan, b1, b2, dedupFirst]
      refine ⟨?_, ?_, ?_, ?_⟩
      · rw [hplan]; decide
      · rw [hplan]; decide
      · intro h
        rcases h with h | h
        · rw [h] at b1; simp at b1
        · rw [h.1, h.2] at b2; simp at b2
      · intro _
        exact hplan
    · rw [Bool.not_eq_true] at b2
      have hplan : plan query = [query] := by
        simp [plan, b1, b2, dedupFirst]
      refine ⟨?_, ?_, ?_, ?_⟩
      · rw [hplan]; simp
      · rw [hplan]; simp
      · intro _
        rw [hplan]; rfl
      · intro h
        rw [h.2] at b2
        simp at b2

/-- Each subgoal keeps at most three hits. -/
theorem keptFor_length_le (retrieve : List Char → List Doc) (sg : List Char) :
    (keptFor retrieve sg).length ≤ 3 := by
  simp only [keptFor]
  rw [List.length_take]
  exact Nat.min_le_left _ _

/-- The evidence accumulated over all subgoals is at most three per subgoal. -/
theorem flatMap_keptFor_length_le (retrieve : List Char → List Doc)
    (sgs : List (List Char)) :
    (sgs.flatMap (fun sg => keptFor retrieve sg)).length ≤ 3 * sgs.length := by
  induction sgs with
  | nil => simp
  | cons sg rest ih =>
    simp only [List.flatMap_cons, List.length_append, List.length_cons]
    have h1 := keptFor_length_le retrieve sg
    omega

/-- Claim C3 (confirmed): every run of the agent loop enters Refining at
    most once and performs exactly one reflection, and the collected
    evidence is bounded by three hits per subgoal plus the single
    refinement retrieval batch (empty when no refinement ran). -/
theorem agent_loop_single_refinement (retrieve : List Char → List Doc)
    (query : List Char) :
    (agenticRun retrieve query).events.count AgentPhase.refiningS ≤ 1
    ∧ (agenticRun retrieve query).events.count AgentPhase.reflectingS = 1
    ∧ (agenticRun retrieve query).collected.length
        ≤ 3 * (plan query).length
          + (if (agenticRun retrieve query).refined then
               (retrieve ((agenticRun retrieve query).refinedQuery)).length
             else 0) := by
  have hpre := flatMap_keptFor_length_le retrieve (plan query)
  by_cases hok : (reflect (synthesize_answer query
      ((plan query).flatMap (fun sg => keptFor retrieve sg)))
      ((plan query).flatMap (fun sg => keptFor retrieve sg))).1 = true
  · refine ⟨?_, ?_, ?_⟩
    · simp only [agenticRun, hok]
      simp [List.count_append, List.count_cons, List.count_replicate]
    · simp only [agenticRun, hok]
      simp [List.count_append, List.count_cons, List.count_replicate]
    · simp only [agenticRun, hok, if_true]
      simpa using hpre
  · rw [Bool.not_eq_true] at hok
    refine ⟨?_, ?_, ?_⟩
    · simp only [agenticRun, hok]
      simp [List.count_append, List.count_cons, List.count_replicate]
    · simp only [agenticRun, hok]
      simp [List.count_append, List.count_cons, List.count_replicate]
    · simp only [agenticRun, hok, Bool.false_eq_true, if_false, Bool.not_false,
        if_true, List.length_append]
      omega

/-- One fold step of the merge: ids stay unchanged on a key collision and
    gain the new key at the end otherwise. -/
theorem upsert_ids (h : Scored) :
    ∀ acc : List Scored, idsOf (upsert h acc)
      = if h.doc.id ∈ idsOf acc then idsOf acc else idsOf acc ++ [h.doc.id] := by
  intro acc
  induction acc with
  | nil => simp [upsert, idsOf]
  | cons e es ih =>
    by_cases he : e.doc.id = h.doc.id
    · by_cases hs : h.score > e.score
      · simp [upsert, he, hs, idsOf]
      · simp [upsert, he, hs, idsOf]
    · simp only [upsert, if_neg he, idsOf, List.map_cons]
      simp only [idsOf] at ih
      rw [ih]
      by_cases hmem : h.doc.id ∈ List.map (fun e => e.doc.id) es
      · simp [hmem, Ne.symm he]
      · simp [hmem, Ne.symm he]

/-- The merge fold processes a trailing hit last. -/
theorem mergeById_snoc (l : List Scored) (h : Scored) :
    mergeById (l ++ [h]) = upsert h (mergeById l) := by
  simp [mergeById, List.foldl_append]

/-- Membership in dedupFirst. -/
theorem dedupFirst_mem {α : Type} [DecidableEq α] :
    ∀ (seen l : List α) (x : α), x ∈ dedupFirst seen l ↔ x ∈ l ∧ x ∉ seen := by
  intro seen l
  induction l generalizing seen with
  | nil => intro x; simp [dedupFirst]
  | cons y ys ih =>
    intro x
    by_cases hy : y ∈ seen
    · rw [dedupFirst, if_pos hy, ih seen x]
      constructor
      · exact fun hx => ⟨List.mem_cons_of_mem y hx.1, hx.2⟩
      · rintro ⟨hx, hns⟩
        rcases List.mem_cons.mp hx with rfl | hx
        · exact absurd hy hns
        · exact ⟨hx, hns⟩
    · rw [dedupFirst, if_neg hy]
      constructor
      · intro hx
        rcases List.mem_cons.mp hx with rfl | hx
        · exact ⟨List.mem_cons_self _ _, hy⟩
        · have := (ih (y :: seen) x).mp hx
          exact ⟨List.mem_cons_of_mem y this.1,
            fun hs => this.2 (List.mem_cons_of_mem y hs)⟩
      · rintro ⟨hx, hns⟩
        rcases List.mem_cons.mp hx with rfl | hx
        · exact List.mem_cons_self x _
        · by_cases hxy : x = y
          · subst hxy; exact List.mem_cons_self x _
          · refine List.mem_cons_of_mem y ((ih (y :: seen) x).mpr ⟨hx, ?_⟩)
            intro hs
            rcases List.mem_cons.mp hs with h1 | h1
            · exact hxy h1
            · exact hns h1

/-- Appending one element to the input of dedupFirst. -/
theorem dedupFirst_snoc {α : Type} [DecidableEq α] :
    ∀ (seen l : List α) (x : α), dedupFirst seen (l ++ [x])
      = dedupFirst seen l ++ (if x ∈ seen ∨ x ∈ l then [] else [x]) := by
  intro seen l
  induction l generalizing seen with
  | nil =>
    intro x
    by_cases hx : x ∈ seen
    · simp [dedupFirst, hx]
    · simp [dedupFirst, hx]
  | cons y ys ih =>
    intro x
    by_cases hy : y ∈ seen
    · rw [List.cons_append, dedupFirst, if_pos hy, dedupFirst, if_pos hy, ih seen x]
      congr 1
      by_cases hxy : x = y
      · subst hxy
        simp [hy]
      · simp [hxy]
    · rw [List.cons_append, dedupFirst, if_neg hy, dedupFirst, if_neg hy, ih (y :: seen) x]
      rw [List.cons_append]
      congr 2
      by_cases hc : x ∈ y :: seen ∨ x ∈ ys
      · rw [if_pos hc, if_pos (by revert hc; simp only [List.mem_cons]; tauto)]
      · rw [if_neg hc, if_neg (by revert hc; simp only [List.mem_cons]; tauto)]

/-- The merged dict holds the distinct incoming ids in first-insertion
    order, exactly the order-preserving deduplication of the hit ids. -/
theorem mergeById_ids (hits : List Scored) :
    idsOf (mergeById hits) = dedupFirst [] (idsOf hits) := by
  induction hits using List.reverseRecOn with
  | nil => simp [mergeById, idsOf, dedupFirst]
  | append_singleton l h ih =>
    rw [mergeById_snoc, upsert_ids, ih]
    have hids : idsOf (l ++ [h]) = idsOf l ++ [h.doc.id] := by
      simp [idsOf]
    rw [hids, dedupFirst_snoc]
    by_cases hmem : h.doc.id ∈ dedupFirst [] (idsOf l)
    · have hl : h.doc.id ∈ idsOf l := ((dedupFirst_mem [] (idsOf l) _).mp hmem).1
      simp [hmem, hl]
    · have hl : ¬ h.doc.id ∈ idsOf l := by
        intro hx
        exact hmem ((dedupFirst_mem [] (idsOf l) _).mpr ⟨hx, by simp⟩)
      simp [hmem, hl]

/-- After merging, the chunk ids carry no duplicate. -/
theorem mergeById_ids_nodup (hits : List Scored) : (idsOf (mergeById hits)).Nodup := by
  rw [mergeById_ids]
  exact dedupFirst_nodup [] _

/-- Filtering by a key different from the upserted hit ignores the upsert. -/
theorem withId_upsert_ne (i : List Char) (h : Scored) (hne : h.doc.id ≠ i) :
    ∀ acc : List Scored, withId i (upsert h acc) = withId i acc := by
  intro acc
  induction acc with
  | nil => simp [upsert, withId, hne]
  | cons e es ih =>
    by_cases he : e.doc.id = h.doc.id
    · have hei : ¬ e.doc.id = i := by rw [he]; exact hne
      by_cases hs : h.score > e.score
      · simp [upsert, he, hs, withId, hne, hei]
      · simp [upsert, he, hs, withId, hne, hei]
    · simp only [upsert, if_neg he]
      by_cases hei : e.doc.id = i
      · simp only [withId, List.filter_cons, decide_eq_true_eq, hei, if_pos rfl]
        simp only [withId] at ih
        simp [ih]
      · simp only [withId, List.filter_cons, decide_eq_true_eq, hei]
        simp only [withId] at ih
        simp [ih, hei]

/-- Upserting a hit whose id is absent appends it. -/
theorem withId_upsert_empty (i : List Char) (h : Scored) (hid : h.doc.id = i) :
    ∀ acc : List Scored, withId i acc = [] → withId i (upsert h acc) = [h] := by
  intro acc
  induction acc with
  | nil => intro _; simp [upsert, withId, hid]
  | cons e es ih =>
    intro hempty
    have hei : ¬ e.doc.id = i := by
      intro hx
      simp [withId, List.filter_cons, hx] at hempty
    have hes : withId i es = [] := by
      simpa [withId, List.filter_cons, hei] using hempty
    have he : ¬ e.doc.id = h.doc.id := by rw [hid]; exact hei
    simp only [upsert, if_neg he]
    simpa [withId, List.filter_cons, hei] using ih hes

/-- Upserting onto the unique entry of the same id keeps the larger score. -/
theorem withId_upsert_single (i : List Char) (h : Scored) (hid : h.doc.id = i)
    (e0 : Scored) :
    ∀ acc : List Scored, withId i acc = [e0] →
      withId i (upsert h acc) = [if h.score > e0.score then h else e0] := by
  intro acc
  induction acc with
  | nil => intro hx; simp [withId] at hx
  | cons e es ih =>
    intro hsingle
    by_cases hei : e.doc.id = i
    · have hhead : e = e0 ∧ withId i es = [] := by
        have := hsingle
        simp only [withId, List.filter_cons, decide_eq_true_eq, if_pos hei] at this
        exact ⟨(List.cons_eq_cons.mp this).1, (List.cons_eq_cons.mp this).2⟩
      rcases hhead with ⟨rfl, hes⟩
      have he : e.doc.id = h.doc.id := by rw [hei, hid]
      by_cases hs : h.score > e.score
      · have hup : upsert h (e :: es) = h :: es := by
          simp only [upsert]
          rw [if_pos he, if_pos hs]
        have hfil : withId i (h :: es) = h :: withId i es := by
          simp [withId, List.filter_cons, hid]
        rw [hup, hfil, hes, if_pos hs]
      · have hup : upsert h (e :: es) = e :: es := by
          simp only [upsert]
          rw [if_pos he, if_neg hs]
        have hfil : withId i (e :: es) = e :: withId i es := by
          simp [withId, List.filter_cons, hei]
        rw [hup, hfil, hes, if_neg hs]
    · have hes : withId i es = [e0] := by
        simpa [withId, List.filter_cons, hei] using hsingle
      by_cases he : e.doc.id = h.doc.id
      · exact absurd (he.trans hid) hei
      · simp only [upsert, if_neg he]
        simpa [withId, List.filter_cons, hei] using ih hes

/-- Maximum of a list extended on the right. -/
theorem maxList_snoc (xs : List ℚ) (y : ℚ) (hne : xs ≠ []) :
    maxList (xs ++ [y]) = max (maxList xs) y := by
  induction xs with
  | nil => exact absurd rfl hne
  | cons x zs ih =>
    cases zs with
    | nil => simp [maxList]
    | cons z ws =>
      have h1 : maxList (z :: (ws ++ [y])) = max (maxList (z :: ws)) y := ih (by simp)
      show max x (maxList (z :: (ws ++ [y]))) = max (max x (maxList (z :: ws))) y
      rw [h1]
      exact (max_assoc _ _ _).symm

/-- Merged score of any chunk id: after the merge fold, the (unique) entry
    of an id that occurred among the hits carries the maximum of all raw
    scores that arrived with that id. -/
theorem mergeById_withId_scores (hits : List Scored) (i : List Char) :
    (withId i (mergeById hits)).map (fun e => e.score)
      = if withId i hits = [] then []
        else [maxList ((withId i hits).map (fun e => e.score))] := by
  induction hits using List.reverseRecOn with
  | nil => simp [mergeById, withId]
  | append_singleton l h ih =>
    rw [mergeById_snoc]
    by_cases hne : h.doc.id = i
    · have hw : withId i (l ++ [h]) = withId i l ++ [h] := by
        simp [withId, List.filter_append, hne]
      by_cases hempty : withId i (mergeById l) = []
      · have hl : withId i l = [] := by
          by_contra hx
          rw [hempty] at ih
          simp only [List.map_nil] at ih
          rw [if_neg hx] at ih
          exact List.cons_ne_nil _ _ ih.symm
        rw [withId_upsert_empty i h hne _ hempty, hw, hl]
        simp [maxList]
      · obtain ⟨e0, rest, hw0⟩ : ∃ e0 rest, withId i (mergeById l) = e0 :: rest := by
          cases hx : withId i (mergeById l) with
          | nil => exact absurd hx hempty
          | cons a b => exact ⟨a, b, rfl⟩
        have hrest : rest = [] ∧ withId i l ≠ []
            ∧ e0.score = maxList ((withId i l).map (fun e => e.score)) := by
          rw [hw0] at ih
          by_cases hl : withId i l = []
          · rw [if_pos hl] at ih
            simp at ih
          · rw [if_neg hl] at ih
            simp only [List.map_cons] at ih
            have := List.cons_eq_cons.mp ih
            refine ⟨List.map_eq_nil_iff.mp this.2, hl, this.1⟩
        obtain ⟨hrnil, hlne, hscore⟩ := hrest
        subst hrnil
        have hmapne : (withId i l).map (fun e => e.score) ≠ [] := by
          simpa using hlne
        have hkey : withId i (upsert h (mergeById l))
            = [if h.score > e0.score then h else e0] :=
          withId_upsert_single i h hne e0 _ hw0
        rw [hkey, hw]
        have happ : ¬ (withId i l ++ [h] = []) := by simp
        rw [if_neg happ]
        have hmaps : (withId i l ++ [h]).map (fun e => e.score)
            = (withId i l).map (fun e => e.score) ++ [h.score] := by
          simp
        rw [hmaps, maxList_snoc _ _ hmapne, ← hscore]
        by_cases hs : h.score > e0.score
        · rw [if_pos hs, max_eq_right (le_of_lt hs)]
          simp
        · rw [if_neg hs, max_eq_left (le_of_not_lt hs)]
          simp
    · rw [withId_upsert_ne i h hne]
      have hw : withId i (l ++ [h]) = withId i l := by
        simp [withId, List.filter_append, hne]
      rw [hw, ih]

/-- Claim C4 (confirmed): when a chunk id occurs once in the vector
    candidate set with raw score s1 and once in the lexical candidate set
    with raw score s2, the merged entry for that id scores max(s1, s2),
    and after merging the chunk ids carry no duplicate (each id occurs at
    most once). -/
theorem merged_score_is_max (vec lex : List Scored) (i : List Char)
    (s1 s2 : ℚ) (d1 d2 : Doc)
    (h1 : withId i vec = [{ score := s1, doc := d1 }])
    (h2 : withId i lex = [{ score := s2, doc := d2 }]) :
    (withId i (mergeById (vec ++ lex))).map (fun e => e.score) = [max s1 s2]
    ∧ (idsOf (mergeById (vec ++ lex))).Nodup := by
  constructor
  · rw [mergeById_withId_scores]
    have hw : withId i (vec ++ lex)
        = [{ score := s1, doc := d1 }, { score := s2, doc := d2 }] := by
      have hsplit : withId i (vec ++ lex) = withId i vec ++ withId i lex := by
        simp [withId, List.filter_append]
      rw [hsplit, h1, h2]
      rfl
    rw [hw]
    simp [maxList]
  · exact mergeById_ids_nodup _

/-- Witness for merged_score_is_max on a concrete collision: id c1 arrives
    with vector score 2 and lexical score 3; the merged score is 3. -/
theorem merged_score_is_max_witness :
    (withId (lc ("c1")) (mergeById
        ([{ score := 2, doc := { id := lc ("c1"), text := lc ("alpha"), meta := emptyMeta } }]
         ++ [{ score := 3, doc := { id := lc ("c1"), text := lc ("alpha"), meta := emptyMeta } }]))).map
        (fun e => e.score) = [max 2 3]
    ∧ (idsOf (mergeById
        ([{ score := 2, doc := { id := lc ("c1"), text := lc ("alpha"), meta := emptyMeta } }]
         ++ [{ score := 3, doc := { id := lc ("c1"), text := lc ("alpha"), meta := emptyMeta } }]))).Nodup :=
  merged_score_is_max _ _ _ 2 3
    { id := lc ("c1"), text := lc ("alpha"), meta := emptyMeta }
    { id := lc ("c1"), text := lc ("alpha"), meta := emptyMeta }
    (by decide) (by decide)

/-- The first maximum is the seed or a list element. -/
theorem firstMaxBy_mem {α : Type} (key : α → ℚ) :
    ∀ (l : List α) (x : α), firstMaxBy key x l ∈ x :: l := by
  intro l
  induction l with
  | nil => intro x; simp [firstMaxBy]
  | cons y ys ih =>
    intro x
    by_cases h : key y > key x
    · rw [firstMaxBy, if_pos h]
      have := ih y
      rcases List.mem_cons.mp this with h1 | h1
      · rw [h1]; simp
      · simp [h1]
    · rw [firstMaxBy, if_neg h]
      have := ih x
      rcases List.mem_cons.mp this with h1 | h1
      · rw [h1]; simp
      · simp [h1]

/-- The first maximum dominates the seed and every list element. -/
theorem firstMaxBy_ge {α : Type} (key : α → ℚ) :
    ∀ (l : List α) (x : α),
      key x ≤ key (firstMaxBy key x l) ∧ ∀ c ∈ l, key c ≤ key (firstMaxBy key x l) := by
  intro l
  induction l with
  | nil => intro x; simp [firstMaxBy]
  | cons y ys ih =>
    intro x
    by_cases h : key y > key x
    · rw [firstMaxBy, if_pos h]
      refine ⟨le_of_lt (lt_of_lt_of_le h (ih y).1), ?_⟩
      intro c hc
      rcases List.mem_cons.mp hc with rfl | hc
      · exact (ih c).1
      · exact (ih y).2 c hc
    · rw [firstMaxBy, if_neg h]
      refine ⟨(ih x).1, ?_⟩
      intro c hc
      rcases List.mem_cons.mp hc with rfl | hc
      · exact le_trans (le_of_not_lt h) (ih x).1
      · exact (ih x).2 c hc

/-- A seed no element strictly beats is kept. -/
theorem firstMaxBy_of_forall_le {α : Type} (key : α → ℚ) :
    ∀ (l : List α) (x : α), (∀ c ∈ l, ¬ key c > key x) → firstMaxBy key x l = x := by
  intro l
  induction l with
  | nil => intro x _; rfl
  | cons y ys ih =>
    intro x h
    rw [firstMaxBy, if_neg (h y (List.mem_cons_self _ _))]
    exact ih x (fun c hc => h c (List.mem_cons_of_mem y hc))

/-- Raising the seed to a key still below the running maximum does not
    change the first maximum. -/
theorem firstMaxBy_seed_irrel {α : Type} (key : α → ℚ) :
    ∀ (l : List α) (a b : α), key a ≤ key b → key b < key (firstMaxBy key a l) →
      firstMaxBy key b l = firstMaxBy key a l := by
  intro l
  induction l with
  | nil =>
    intro a b hab hlt
    rw [firstMaxBy] at hlt
    exact absurd (lt_of_le_of_lt hab hlt) (lt_irrefl _)
  | cons c cs ih =>
    intro a b hab hlt
    by_cases hca : key c > key a
    · rw [firstMaxBy, if_pos hca] at hlt
      by_cases hcb : key c > key b
      · simp only [firstMaxBy]
        rw [if_pos hcb, if_pos hca]
      · simp only [firstMaxBy]
        rw [if_neg hcb, if_pos hca]
        exact ih c b (le_of_not_lt hcb) hlt
    · rw [firstMaxBy, if_neg hca] at hlt
      have hcb : ¬ key c > key b := not_lt_of_le (le_trans (le_of_not_lt hca) hab)
      simp only [firstMaxBy]
      rw [if_neg hcb, if_neg hca]
      exact ih a b hab hlt

/-- Selection identity of the stable descending sort: the sorted list
    starts with the first maximum and continues with the sorted remainder
    after removing that occurrence. -/
theorem sortDesc_eq_firstMax_cons {α : Type} [DecidableEq α] (key : α → ℚ) :
    ∀ (xs : List α) (x : α),
      sortDesc key (x :: xs)
        = firstMaxBy key x xs
            :: sortDesc key ((x :: xs).erase (firstMaxBy key x xs)) := by
  intro xs
  induction xs with
  | nil =>
    intro x
    simp [sortDesc, firstMaxBy, insDesc, List.erase_cons_head]
  | cons y ys ih =>
    intro x
    have hM : sortDesc key (y :: ys)
        = firstMaxBy key y ys :: sortDesc key ((y :: ys).erase (firstMaxBy key y ys)) := ih y
    have hL : sortDesc key (x :: y :: ys) = insDesc key x (sortDesc key (y :: ys)) := rfl
    rw [hL, hM]
    by_cases hxy : key x ≥ key (firstMaxBy key y ys)
    · have h1 : insDesc key x (firstMaxBy key y ys
            :: sortDesc key ((y :: ys).erase (firstMaxBy key y ys)))
          = x :: firstMaxBy key y ys
            :: sortDesc key ((y :: ys).erase (firstMaxBy key y ys)) := by
        simp only [insDesc]
        rw [if_pos hxy]
      rw [h1]
      have h2 : firstMaxBy key x (y :: ys) = x := by
        apply firstMaxBy_of_forall_le
        intro c hc
        rcases List.mem_cons.mp hc with rfl | hc
        · exact not_lt_of_le (le_trans (firstMaxBy_ge key ys c).1 hxy)
        · exact not_lt_of_le (le_trans ((firstMaxBy_ge key ys y).2 c hc) hxy)
      rw [h2, List.erase_cons_head, hM]
    · push_neg at hxy
      have h1 : insDesc key x (firstMaxBy key y ys
            :: sortDesc key ((y :: ys).erase (firstMaxBy key y ys)))
          = firstMaxBy key y ys
            :: insDesc key x (sortDesc key ((y :: ys).erase (firstMaxBy key y ys))) := by
        simp only [insDesc]
        rw [if_neg (not_le_of_lt hxy)]
      rw [h1]
      have h2 : firstMaxBy key x (y :: ys) = firstMaxBy key y ys := by
        simp only [firstMaxBy]
        by_cases hyx : key y > key x
        · rw [if_pos hyx]
        · rw [if_neg hyx]
          exact firstMaxBy_seed_irrel key ys y x (le_of_not_lt hyx) hxy
      rw [h2]
      have hne : x ≠ firstMaxBy key y ys := fun h => by
        rw [h] at hxy
        exact lt_irrefl _ hxy
      have h3 : (x :: y :: ys).erase (firstMaxBy key y ys)
          = x :: (y :: ys).erase (firstMaxBy key y ys) := by
        rw [List.erase_cons]
        simp [hne]
      rw [h3]
      rfl

/-- Once a best candidate is installed, the scan computes the running first
    maximum of the remaining candidates. -/
theorem pickBestAux_seeded (gainOf : Scored → ℚ) :
    ∀ (l : List Scored) (b : Scored),
      pickBestAux gainOf l (some b, gainOf b)
        = (some (firstMaxBy gainOf b l), gainOf (firstMaxBy gainOf b l)) := by
  intro l
  induction l with
  | nil => intro b; rfl
  | cons c cs ih =>
    intro b
    by_cases h : gainOf c > gainOf b
    · simp only [pickBestAux]
      rw [if_pos h, firstMaxBy, if_pos h]
      exact ih c
    · simp only [pickBestAux]
      rw [if_neg h, firstMaxBy, if_neg h]
      exact ih b

/-- The best-candidate scan of a list whose head clears the -1e9 floor
    returns the first maximum. -/
theorem pickBest_cons (gainOf : Scored → ℚ) (x : Scored) (xs : List Scored)
    (hx : gainOf x > -(10 ^ 9)) :
    pickBest gainOf (x :: xs) = some (firstMaxBy gainOf x xs) := by
  unfold pickBest
  simp only [pickBestAux]
  rw [if_pos hx, pickBestAux_seeded]

/-- The running best gain never decreases. -/
theorem pickBestAux_snd_mono (gainOf : Scored → ℚ) :
    ∀ (l : List Scored) (b : Option Scored) (g : ℚ),
      g ≤ (pickBestAux gainOf l (b, g)).2 := by
  intro l
  induction l with
  | nil => intro b g; exact le_refl _
  | cons c cs ih =>
    intro b g
    by_cases h : gainOf c > g
    · simp only [pickBestAux]
      rw [if_pos h]
      exact le_trans (le_of_lt h) (ih (some c) (gainOf c))
    · simp only [pickBestAux]
      rw [if_neg h]
      exact ih b g

/-- The final best gain dominates the gain of every scanned candidate. -/
theorem pickBestAux_snd_ge (gainOf : Scored → ℚ) :
    ∀ (l : List Scored) (b : Option Scored) (g : ℚ) (c : Scored),
      c ∈ l → gainOf c ≤ (pickBestAux gainOf l (b, g)).2 := by
  intro l
  induction l with
  | nil => intro b g c hc; simp at hc
  | cons d ds ih =>
    intro b g c hc
    rcases List.mem_cons.mp hc with rfl | hc
    · by_cases h : gainOf c > g
      · simp only [pickBestAux]
        rw [if_pos h]
        exact pickBestAux_snd_mono gainOf ds (some c) (gainOf c)
      · simp only [pickBestAux]
        rw [if_neg h]
        exact le_trans (le_of_not_lt h) (pickBestAux_snd_mono gainOf ds b g)
    · by_cases h : gainOf d > g
      · simp only [pickBestAux]
        rw [if_pos h]
        exact ih (some d) (gainOf d) c hc
      · simp only [pickBestAux]
        rw [if_neg h]
        exact ih b g c hc

/-- When the scan ends on a best candidate, the recorded gain is its gain. -/
theorem pickBestAux_snd_of_some (gainOf : Scored → ℚ) :
    ∀ (l : List Scored) (b : Option Scored) (g : ℚ),
      (b = none ∨ ∃ b0, b = some b0 ∧ g = gainOf b0) →
      ∀ m, (pickBestAux gainOf l (b, g)).1 = some m
        → (pickBestAux gainOf l (b, g)).2 = gainOf m := by
  intro l
  induction l with
  | nil =>
    intro b g hinv m hm
    simp only [pickBestAux] at hm ⊢
    rcases hinv with rfl | ⟨b0, rfl, rfl⟩
    · exact absurd hm (by simp)
    · cases Option.some.inj hm
      rfl
  | cons c cs ih =>
    intro b g hinv m hm
    by_cases h : gainOf c > g
    · simp only [pickBestAux] at hm ⊢
      rw [if_pos h] at hm ⊢
      exact ih (some c) (gainOf c) (Or.inr ⟨c, rfl, rfl⟩) m hm
    · simp only [pickBestAux] at hm ⊢
      rw [if_neg h] at hm ⊢
      exact ih b g hinv m hm

/-- The chosen candidate of pickBest has maximal gain. -/
theorem pickBest_le (gainOf : Scored → ℚ) (l : List Scored) (m : Scored)
    (hm : pickBest gainOf l = some m) :
    ∀ c ∈ l, gainOf c ≤ gainOf m := by
  intro c hc
  have h2 := pickBestAux_snd_of_some gainOf l none (-(10 ^ 9)) (Or.inl rfl) m hm
  have h3 := pickBestAux_snd_ge gainOf l none (-(10 ^ 9)) c hc
  rw [h2] at h3
  exact h3

/-- The scan's final best is the seed or an element of the list. -/
theorem pickBestAux_fst_mem (gainOf : Scored → ℚ) :
    ∀ (l : List Scored) (b : Option Scored) (g : ℚ) (m : Scored),
      (pickBestAux gainOf l (b, g)).1 = some m → b = some m ∨ m ∈ l := by
  intro l
  induction l with
  | nil => intro b g m hm; exact Or.inl hm
  | cons c cs ih =>
    intro b g m hm
    by_cases h : gainOf c > g
    · simp only [pickBestAux] at hm
      rw [if_pos h] at hm
      rcases ih (some c) (gainOf c) m hm with h1 | h1
      · cases Option.some.inj h1
        exact Or.inr (List.mem_cons_self _ _)
      · exact Or.inr (List.mem_cons_of_mem c h1)
    · simp only [pickBestAux] at hm
      rw [if_neg h] at hm
      rcases ih b g m hm with h1 | h1
      · exact Or.inl h1
      · exact Or.inr (List.mem_cons_of_mem c h1)

/-- The chosen candidate of pickBest is a list element. -/
theorem pickBest_mem (gainOf : Scored → ℚ) (l : List Scored) (m : Scored)
    (hm : pickBest gainOf l = some m) : m ∈ l := by
  rcases pickBestAux_fst_mem gainOf l none (-(10 ^ 9)) m hm with h | h
  · exact absurd h (by simp)
  · exact h

/-- With λ = 1 the MMR gain is the raw relevance score. -/
theorem mmrGain_one (simF : List Char → List Char → ℚ)
    (selTexts : List (List Char)) :
    mmrGain 1 simF selTexts = fun c => c.score := by
  funext c
  simp [mmrGain]

/-- MMR run at λ = 1: every round takes the first maximum by score, which
    is exactly the stable descending sort truncated to the remaining
    budget. -/
theorem mmrAux_one_eq_sortDesc (simF : List Char → List Char → ℚ) (k : ℕ) :
    ∀ (fuel : ℕ) (cands : List Scored) (selTexts : List (List Char)) (cnt : ℕ),
      cands.length ≤ fuel →
      (∀ c ∈ cands, -(10 ^ 9 : ℚ) < c.score) →
      mmrAux 1 simF k fuel cands selTexts cnt
        = ((sortDesc (fun e => e.score) cands).take (k - cnt)).map (fun e => e.doc) := by
  intro fuel
  induction fuel with
  | zero =>
    intro cands sel cnt hlen _
    have hnil : cands = [] := List.length_eq_zero.mp (Nat.le_antisymm hlen (Nat.zero_le _))
    subst hnil
    simp [mmrAux, sortDesc]
  | succ fuel ih =>
    intro cands sel cnt hlen hsc
    cases cands with
    | nil => simp [mmrAux, sortDesc]
    | cons x xs =>
      by_cases hk : cnt < k
      · have hpick : pickBest (mmrGain 1 simF sel) (x :: xs)
            = some (firstMaxBy (fun e => e.score) x xs) := by
          rw [mmrGain_one]
          exact pickBest_cons _ x xs (hsc x (List.mem_cons_self _ _))
        have hmem : firstMaxBy (fun e => e.score) x xs ∈ x :: xs :=
          firstMaxBy_mem _ xs x
        simp only [mmrAux, List.isEmpty_cons, Bool.false_or, hpick]
        rw [if_neg (by simpa using hk)]
        have hsub : k - cnt = (k - (cnt + 1)) + 1 := by omega
        rw [sortDesc_eq_firstMax_cons, hsub, List.take_succ_cons, List.map_cons]
        congr 1
        refine ih ((x :: xs).erase (firstMaxBy (fun e => e.score) x xs)) _ (cnt + 1) ?_ ?_
        · rw [List.length_erase_of_mem hmem]
          simpa using Nat.le_of_succ_le_succ (by simpa using hlen)
        · intro c hc
          exact hsc c (List.erase_subset _ _ hc)
      · simp only [mmrAux, List.isEmpty_cons, Bool.false_or]
        rw [if_pos (by simpa using hk)]
        rw [Nat.sub_eq_zero_of_le (Nat.le_of_not_lt hk)]
        simp

/-- With λ = 0 the MMR gain is the negated similarity to the selection. -/
theorem mmrGain_zero (simF : List Char → List Char → ℚ)
    (selTexts : List (List Char)) :
    mmrGain 0 simF selTexts = fun c => -(simTo simF c.doc.text selTexts) := by
  funext c
  simp [mmrGain]

/-- At λ = 0 every traced choice minimizes the similarity to the already
    selected texts over the candidates still in the pool. -/
theorem mmrTraceAux_zero_min (simF : List Char → List Char → ℚ) (k : ℕ) :
    ∀ (fuel : ℕ) (cands : List Scored) (sel : List (List Char)) (cnt : ℕ),
      ∀ entry ∈ mmrTraceAux 0 simF k fuel cands sel cnt,
        ∀ c ∈ entry.2.1,
          simTo simF entry.1.doc.text entry.2.2 ≤ simTo simF c.doc.text entry.2.2 := by
  intro fuel
  induction fuel with
  | zero => intro cands sel cnt entry hmem; simp [mmrTraceAux] at hmem
  | succ fuel ih =>
    intro cands sel cnt entry hmem
    cases cands with
    | nil => simp [mmrTraceAux] at hmem
    | cons x xs =>
      by_cases hk : cnt < k
      · simp only [mmrTraceAux, List.isEmpty_cons, Bool.false_or] at hmem
        rw [if_neg (by simpa using hk)] at hmem
        cases hp : pickBest (mmrGain 0 simF sel) (x :: xs) with
        | none => rw [hp] at hmem; simp at hmem
        | some b =>
          rw [hp] at hmem
          rcases List.mem_cons.mp hmem with rfl | htail
          · intro c hc
            have hle := pickBest_le _ _ _ hp c hc
            rw [mmrGain_zero] at hle
            simpa using hle
          · exact ih _ _ _ entry htail
      · simp only [mmrTraceAux, List.isEmpty_cons, Bool.false_or] at hmem
        rw [if_pos (by simpa using hk)] at hmem
        simp at hmem

/-- Claim C5 (confirmed): with λ = 1 the MMR output equals the
    pure-relevance order, i.e. the candidates stably sorted by descending
    merged score and truncated to k; with λ = 0 every selection has maximum
    fuzzy similarity to the previously selected texts no greater than that
    of any candidate still unselected at the moment it is chosen. -/
theorem mmr_lambda_extremes (simF : List Char → List Char → ℚ) (k : ℕ)
    (cands : List Scored)
    (hs : ∀ c ∈ cands, -(10 ^ 9 : ℚ) < c.score) :
    mmr 1 simF k cands
        = ((sortDesc (fun e => e.score) cands).take k).map (fun e => e.doc)
    ∧ ∀ entry ∈ mmrTrace 0 simF k cands, ∀ c ∈ entry.2.1,
        simTo simF entry.1.doc.text entry.2.2 ≤ simTo simF c.doc.text entry.2.2 := by
  constructor
  · have h := mmrAux_one_eq_sortDesc simF k cands.length cands [] 0 (le_refl _) hs
    simpa [mmr] using h
  · intro entry hmem c hc
    exact mmrTraceAux_zero_min simF k cands.length cands [] 0 entry hmem c hc

/-- Witness for mmr_lambda_extremes on two concrete candidates with a
    constant fuzzy ratio of 50. -/
theorem mmr_lambda_extremes_witness :
    mmr 1 (fun _ _ => 50) 2 sampleCands
        = ((sortDesc (fun e => e.score) sampleCands).take 2).map (fun e => e.doc)
    ∧ ∀ entry ∈ mmrTrace 0 (fun _ _ => 50) 2 sampleCands, ∀ c ∈ entry.2.1,
        simTo (fun _ _ => 50) entry.1.doc.text entry.2.2
          ≤ simTo (fun _ _ => 50) c.doc.text entry.2.2 :=
  mmr_lambda_extremes (fun _ _ => 50) 2 sampleCands (by decide)

/-- Witness for plan_ordered_dedup_first on the query "angle shot". -/
theorem plan_ordered_dedup_first_witness :
    (plan (lc ("angle shot"))).Nodup
    ∧ plan (lc ("angle shot")) ≠ []
    ∧ (plan (lc ("angle shot"))).head? = some (lc ("angle shot")) := by
  have h := plan_ordered_dedup_first (lc ("angle shot"))
  exact ⟨h.1, h.2.1, h.2.2.1 (Or.inl (by decide))⟩

/-- Bounds of the running maximum over a bounded nonempty list. -/
theorem maxList_bounds (lo hi : ℚ) :
    ∀ l : List ℚ, l ≠ [] → (∀ x ∈ l, lo ≤ x ∧ x ≤ hi) →
      lo ≤ maxList l ∧ maxList l ≤ hi := by
  intro l
  induction l with
  | nil => intro h _; exact absurd rfl h
  | cons x zs ih =>
    intro _ hb
    cases zs with
    | nil => simpa [maxList] using hb x (List.mem_cons_self _ _)
    | cons z ws =>
      have h1 := ih (by simp) (fun y hy => hb y (List.mem_cons_of_mem x hy))
      have h2 := hb x (List.mem_cons_self _ _)
      constructor
      · exact le_trans h2.1 (le_max_left _ _)
      · exact max_le h2.2 h1.2

/-- The similarity to the selection lies in [0, 1] when the fuzzy ratio
    lies in [0, 100]. -/
theorem simTo_bounds (simF : List Char → List Char → ℚ)
    (hsim : ∀ a b, 0 ≤ simF a b ∧ simF a b ≤ 100)
    (t : List Char) (sel : List (List Char)) :
    0 ≤ simTo simF t sel ∧ simTo simF t sel ≤ 1 := by
  unfold simTo
  by_cases hsel : sel.isEmpty
  · rw [if_pos hsel]
    norm_num
  · rw [if_neg hsel]
    have hne : sel.map (fun st => simF t st) ≠ [] := by
      simp only [ne_eq, List.map_eq_nil_iff]
      intro h
      rw [h] at hsel
      exact hsel rfl
    have hb := maxList_bounds 0 100 (sel.map (fun st => simF t st)) hne (by
      intro x hx
      rcases List.mem_map.mp hx with ⟨st, _, rfl⟩
      exact hsim t st)
    constructor
    · exact div_nonneg hb.1 (by norm_num)
    · rw [div_le_one (by norm_num : (0 : ℚ) < 100)]
      exact hb.2

/-- The MMR gain of a candidate scoring at least -1e6 clears the -1e9
    floor of the best-candidate scan whenever λ lies in [0, 1]. -/
theorem mmrGain_gt_floor (lam : ℚ) (simF : List Char → List Char → ℚ)
    (sel : List (List Char)) (c : Scored)
    (hlam : 0 ≤ lam ∧ lam ≤ 1)
    (hsim : ∀ a b, 0 ≤ simF a b ∧ simF a b ≤ 100)
    (hsc : -(10 ^ 6 : ℚ) ≤ c.score) :
    mmrGain lam simF sel c > -(10 ^ 9) := by
  have hσ := simTo_bounds simF hsim c.doc.text sel
  have h1 : (1 - lam) * simTo simF c.doc.text sel ≤ 1 :=
    mul_le_one₀ (by linarith [hlam.1]) hσ.1 hσ.2
  have h2 : -(10 ^ 6 : ℚ) ≤ lam * c.score := by
    rcases le_or_lt 0 c.score with hpos | hneg
    · have := mul_nonneg hlam.1 hpos
      linarith
    · have := mul_le_mul_of_nonpos_right hlam.2 (le_of_lt hneg)
      linarith
  unfold mmrGain
  linarith

/-- Length of the MMR output: one per round until the budget or the
    candidates run out. -/
theorem mmrAux_length (lam : ℚ) (simF : List Char → List Char → ℚ) (k : ℕ)
    (hlam : 0 ≤ lam ∧ lam ≤ 1)
    (hsim : ∀ a b, 0 ≤ simF a b ∧ simF a b ≤ 100) :
    ∀ (fuel : ℕ) (cands : List Scored) (sel : List (List Char)) (cnt : ℕ),
      cands.length ≤ fuel →
      (∀ c ∈ cands, -(10 ^ 6 : ℚ) ≤ c.score) →
      (mmrAux lam simF k fuel cands sel cnt).length = min (k - cnt) cands.length := by
  intro fuel
  induction fuel with
  | zero =>
    intro cands sel cnt hlen _
    have hnil : cands = [] := List.length_eq_zero.mp (Nat.le_antisymm hlen (Nat.zero_le _))
    subst hnil
    simp [mmrAux]
  | succ fuel ih =>
    intro cands sel cnt hlen hsc
    cases cands with
    | nil => simp [mmrAux]
    | cons x xs =>
      by_cases hk : cnt < k
      · have hpick : pickBest (mmrGain lam simF sel) (x :: xs)
            = some (firstMaxBy (mmrGain lam simF sel) x xs) :=
          pickBest_cons _ x xs (mmrGain_gt_floor lam simF sel x hlam hsim
            (hsc x (List.mem_cons_self _ _)))
        have hmem : firstMaxBy (mmrGain lam simF sel) x xs ∈ x :: xs :=
          firstMaxBy_mem _ xs x
        simp only [mmrAux, List.isEmpty_cons, Bool.false_or, hpick]
        rw [if_neg (by simpa using hk)]
        simp only [List.length_cons]
        rw [ih ((x :: xs).erase (firstMaxBy (mmrGain lam simF sel) x xs)) _ (cnt + 1)
          (by rw [List.length_erase_of_mem hmem]; simpa using Nat.le_of_succ_le_succ (by simpa using hlen))
          (fun c hc => hsc c (List.erase_subset _ _ hc))]
        rw [List.length_erase_of_mem hmem]
        simp only [List.length_cons]
        omega
      · simp only [mmrAux, List.isEmpty_cons, Bool.false_or]
        rw [if_pos (by simpa using hk)]
        rw [Nat.sub_eq_zero_of_le (Nat.le_of_not_lt hk)]
        simp

/-- Every entry of an upsert result is the new hit or an old entry. -/
theorem upsert_mem (h e : Scored) :
    ∀ acc : List Scored, e ∈ upsert h acc → e = h ∨ e ∈ acc := by
  intro acc
  induction acc with
  | nil => intro he; simpa [upsert] using he
  | cons a as ih =>
    intro he
    by_cases ha : a.doc.id = h.doc.id
    · by_cases hs : h.score > a.score
      · rw [upsert, if_pos ha, if_pos hs] at he
        rcases List.mem_cons.mp he with rfl | he
        · exact Or.inl rfl
        · exact Or.inr (List.mem_cons_of_mem a he)
      · rw [upsert, if_pos ha, if_neg hs] at he
        exact Or.inr he
    · rw [upsert, if_neg ha] at he
      rcases List.mem_cons.mp he with rfl | he
      · exact Or.inr (List.mem_cons_self _ _)
      · rcases ih he with h1 | h1
        · exact Or.inl h1
        · exact Or.inr (List.mem_cons_of_mem a h1)

/-- Every merged entry carries the score and doc of one incoming hit. -/
theorem mergeById_mem (hits : List Scored) :
    ∀ e ∈ mergeById hits, e ∈ hits := by
  induction hits using List.reverseRecOn with
  | nil => intro e he; simpa [mergeById] using he
  | append_singleton l h ih =>
    intro e he
    rw [mergeById_snoc] at he
    rcases upsert_mem h e (mergeById l) he with h1 | h1
    · rw [h1]
      simp
    · exact List.mem_append.mpr (Or.inl (ih e h1))

/-- Every document the MMR loop emits is the doc of some candidate. -/
theorem mmrAux_mem (lam : ℚ) (simF : List Char → List Char → ℚ) (k : ℕ) :
    ∀ (fuel : ℕ) (cands : List Scored) (sel : List (List Char)) (cnt : ℕ)
      (d : Doc), d ∈ mmrAux lam simF k fuel cands sel cnt →
        ∃ e ∈ cands, e.doc = d := by
  intro fuel
  induction fuel with
  | zero => intro cands sel cnt d hd; simp [mmrAux] at hd
  | succ fuel ih =>
    intro cands sel cnt d hd
    cases cands with
    | nil => simp [mmrAux] at hd
    | cons x xs =>
      by_cases hk : cnt < k
      · simp only [mmrAux, List.isEmpty_cons, Bool.false_or] at hd
        rw [if_neg (by simpa using hk)] at hd
        cases hp : pickBest (mmrGain lam simF sel) (x :: xs) with
        | none => rw [hp] at hd; simp at hd
        | some b =>
          rw [hp] at hd
          rcases List.mem_cons.mp hd with rfl | htail
          · exact ⟨b, pickBest_mem _ _ _ hp, rfl⟩
          · rcases ih _ _ _ d htail with ⟨e, he, rfl⟩
            exact ⟨e, List.erase_subset _ _ he, rfl⟩
      · simp only [mmrAux, List.isEmpty_cons, Bool.false_or] at hd
        rw [if_pos (by simpa using hk)] at hd
        simp at hd

/-- Erasing the one entry of an id removes that id entirely. -/
theorem erase_id_not_mem (cands : List Scored) (b : Scored)
    (hnodup : (idsOf cands).Nodup) (hb : b ∈ cands) :
    ¬ b.doc.id ∈ idsOf (cands.erase b) := by
  obtain ⟨l1, l2, hbl1, hsplit, herase⟩ := List.exists_erase_eq hb
  rw [herase]
  rw [hsplit] at hnodup
  simp only [idsOf, List.map_append, List.map_cons] at hnodup ⊢
  rw [List.nodup_append] at hnodup
  obtain ⟨h1, h2, hdisj⟩ := hnodup
  rw [List.mem_append]
  rintro (hmem | hmem)
  · exact hdisj hmem (List.mem_cons_self _ _)
  · exact (List.nodup_cons.mp h2).1 hmem

/-- Ids of the erased pool stay duplicate-free. -/
theorem erase_ids_nodup (cands : List Scored) (b : Scored)
    (hnodup : (idsOf cands).Nodup) : (idsOf (cands.erase b)).Nodup := by
  have hsub : List.Sublist (cands.erase b) cands := List.erase_sublist b cands
  exact List.Nodup.sublist (List.Sublist.map _ hsub) hnodup

/-- The MMR output never repeats a chunk id when the candidate ids are
    duplicate-free. -/
theorem mmrAux_ids_nodup (lam : ℚ) (simF : List Char → List Char → ℚ) (k : ℕ) :
    ∀ (fuel : ℕ) (cands : List Scored) (sel : List (List Char)) (cnt : ℕ),
      (idsOf cands).Nodup →
      ((mmrAux lam simF k fuel cands sel cnt).map (fun d => d.id)).Nodup := by
  intro fuel
  induction fuel with
  | zero => intro cands sel cnt _; simp [mmrAux]
  | succ fuel ih =>
    intro cands sel cnt hnodup
    cases cands with
    | nil => simp [mmrAux]
    | cons x xs =>
      by_cases hk : cnt < k
      · simp only [mmrAux, List.isEmpty_cons, Bool.false_or]
        rw [if_neg (by simpa using hk)]
        cases hp : pickBest (mmrGain lam simF sel) (x :: xs) with
        | none => simp
        | some b =>
          simp only [List.map_cons, List.nodup_cons]
          constructor
          · intro hmem
            rcases List.mem_map.mp hmem with ⟨d, hd, hdid⟩
            rcases mmrAux_mem lam simF k fuel _ _ _ d hd with ⟨e, he, rfl⟩
            have : e.doc.id ∈ idsOf ((x :: xs).erase b) :=
              List.mem_map.mpr ⟨e, he, rfl⟩
            rw [hdid] at this
            exact erase_id_not_mem (x :: xs) b hnodup (pickBest_mem _ _ _ hp) this
          · exact ih _ _ _ (erase_ids_nodup (x :: xs) b hnodup)
      · simp only [mmrAux, List.isEmpty_cons, Bool.false_or]
        rw [if_pos (by simpa using hk)]
        simp

/-- Stable descending insertion permutes the extended list. -/
theorem insDesc_perm {α : Type} (key : α → ℚ) (x : α) :
    ∀ l : List α, List.Perm (insDesc key x l) (x :: l) := by
  intro l
  induction l with
  | nil => exact List.Perm.refl _
  | cons y ys ih =>
    by_cases h : key x ≥ key y
    · rw [insDesc, if_pos h]
    · rw [insDesc, if_neg h]
      exact List.Perm.trans (List.Perm.cons y ih) (List.Perm.swap x y ys)

/-- The stable descending sort permutes its input. -/
theorem sortDesc_perm {α : Type} (key : α → ℚ) :
    ∀ l : List α, List.Perm (sortDesc key l) l := by
  intro l
  induction l with
  | nil => exact List.Perm.refl _
  | cons x xs ih =>
    exact List.Perm.trans (insDesc_perm key x (sortDesc key xs)) (List.Perm.cons x ih)

/-- Scores of every hybrid candidate respect the -1e6 floor carried by the
    external vector and lexical scores. -/
theorem hybrid_candidates_bounded (top_k : ℕ) (meta : List Doc)
    (vecRaw : List (ℚ × ℕ)) (scores : List ℚ) (bm25Data : List Doc)
    (hvec : ∀ p ∈ vecRaw, -(10 ^ 6 : ℚ) ≤ p.1)
    (hsc : ∀ s ∈ scores, -(10 ^ 6 : ℚ) ≤ s) :
    ∀ c ∈ vecHitsOf top_k meta vecRaw ++ lexHitsOf top_k scores bm25Data,
      -(10 ^ 6 : ℚ) ≤ c.score := by
  intro c hc
  rcases List.mem_append.mp hc with hv | hl
  · rcases List.mem_map.mp hv with ⟨p, hp, rfl⟩
    exact hvec p (List.mem_of_mem_take hp)
  · have h1 : c ∈ sortDesc (fun e => e.score)
        ((scores.zip bm25Data).map (fun p => { score := p.1, doc := p.2 })) :=
      List.mem_of_mem_take hl
    have h2 := (sortDesc_perm (fun e : Scored => e.score) _).mem_iff.mp h1
    rcases List.mem_map.mp h2 with ⟨p, hp, rfl⟩
    exact hsc p.1 (List.of_mem_zip hp).1

/-- Claim C6 (confirmed): hybrid search returns min(k, number of distinct
    candidate chunk ids) hits with no duplicate ids and no padding - in
    particular never more than k - and returns the empty list when there
    are no candidates at all.  Hypotheses: λ in [0,1], fuzzy ratios in
    [0,100], and raw scores bounded below by -1e6 (so the -1e9 floor of the
    scan never masks a candidate). -/
theorem search_k_tolerant (lam : ℚ) (simF : List Char → List Char → ℚ)
    (top_k : ℕ) (meta : List Doc) (vecRaw : List (ℚ × ℕ)) (scores : List ℚ)
    (bm25Data : List Doc)
    (hlam : 0 ≤ lam ∧ lam ≤ 1)
    (hsim : ∀ a b, 0 ≤ simF a b ∧ simF a b ≤ 100)
    (hvec : ∀ p ∈ vecRaw, -(10 ^ 6 : ℚ) ≤ p.1)
    (hsc : ∀ s ∈ scores, -(10 ^ 6 : ℚ) ≤ s) :
    (search lam simF top_k meta vecRaw scores bm25Data).length
        = min top_k (dedupFirst [] (idsOf (vecHitsOf top_k meta vecRaw
            ++ lexHitsOf top_k scores bm25Data))).length
    ∧ (search lam simF top_k meta vecRaw scores bm25Data).length ≤ top_k
    ∧ ((search lam simF top_k meta vecRaw scores bm25Data).map (fun d => d.id)).Nodup
    ∧ (vecRaw = [] → scores = [] →
        search lam simF top_k meta vecRaw scores bm25Data = []) := by
  have hbound := hybrid_candidates_bounded top_k meta vecRaw scores bm25Data hvec hsc
  have hmerged : ∀ c ∈ mergeById (vecHitsOf top_k meta vecRaw
      ++ lexHitsOf top_k scores bm25Data), -(10 ^ 6 : ℚ) ≤ c.score :=
    fun c hc => hbound c (mergeById_mem _ c hc)
  have hlen : (search lam simF top_k meta vecRaw scores bm25Data).length
      = min top_k (dedupFirst [] (idsOf (vecHitsOf top_k meta vecRaw
          ++ lexHitsOf top_k scores bm25Data))).length := by
    have h1 := mmrAux_length lam simF top_k hlam hsim
      (mergeById (vecHitsOf top_k meta vecRaw ++ lexHitsOf top_k scores bm25Data)).length
      (mergeById (vecHitsOf top_k meta vecRaw ++ lexHitsOf top_k scores bm25Data))
      [] 0 (le_refl _) hmerged
    have h2 : (mergeById (vecHitsOf top_k meta vecRaw
        ++ lexHitsOf top_k scores bm25Data)).length
        = (dedupFirst [] (idsOf (vecHitsOf top_k meta vecRaw
            ++ lexHitsOf top_k scores bm25Data))).length := by
      rw [← mergeById_ids]
      simp [idsOf]
    rw [← h2]
    simpa [search, mmr] using h1
  refine ⟨hlen, ?_, ?_, ?_⟩
  · rw [hlen]
    exact Nat.min_le_left _ _
  · exact mmrAux_ids_nodup lam simF top_k _ _ _ _ (mergeById_ids_nodup _)
  · rintro rfl rfl
    simp [search, vecHitsOf, lexHitsOf, mergeById, mmr, mmrAux, sortDesc]

/-- Witness for search_k_tolerant: k = 6 requested against a two-chunk
    corpus yields exactly min(6, 2) = 2 hits, duplicate-free. -/
theorem search_k_tolerant_witness :
    (search 1 (fun _ _ => 50) 6 [docA, docB] [(2, 0), (1, 1)] [3, 1] [docA, docB]).length
        = min 6 (dedupFirst [] (idsOf (vecHitsOf 6 [docA, docB] [(2, 0), (1, 1)]
            ++ lexHitsOf 6 [3, 1] [docA, docB]))).length
    ∧ (search 1 (fun _ _ => 50) 6 [docA, docB] [(2, 0), (1, 1)] [3, 1] [docA, docB]).length ≤ 6
    ∧ ((search 1 (fun _ _ => 50) 6 [docA, docB] [(2, 0), (1, 1)] [3, 1] [docA, docB]).map
        (fun d => d.id)).Nodup
    ∧ (search 1 (fun _ _ => 50) 6 [docA, docB] [(2, 0), (1, 1)] [3, 1] [docA, docB]).length = 2 := by
  have h := search_k_tolerant 1 (fun _ _ => 50) 6 [docA, docB] [(2, 0), (1, 1)] [3, 1]
    [docA, docB] (by constructor <;> norm_num) (fun a b => by constructor <;> norm_num)
    (by intro p hp; fin_cases hp <;> norm_num) (by intro s hs; fin_cases hs <;> norm_num)
  refine ⟨h.1, h.2.1, h.2.2.1, ?_⟩
  rw [h.1]
  decide

/-- Ceiling division of zero. -/
theorem ceilDiv_of_len_zero (step : ℕ) (hstep : 1 ≤ step) : ceilDiv 0 step = 0 := by
  rw [ceilDiv]
  exact Nat.div_eq_of_lt (by omega)

/-- Chunk count of the window loop: exactly the ceiling of length over step. -/
theorem chunkGo_length (size step : ℕ) (hstep : 1 ≤ step) :
    ∀ (fuel : ℕ) (rem : List Char), rem.length ≤ fuel →
      (chunkGo size step fuel rem).length = ceilDiv rem.length step := by
  intro fuel
  induction fuel with
  | zero =>
    intro rem hlen
    have hnil : rem = [] := List.length_eq_zero.mp (Nat.le_antisymm hlen (Nat.zero_le _))
    subst hnil
    simp [chunkGo, ceilDiv_of_len_zero step hstep]
  | succ fuel ih =>
    intro rem hlen
    cases rem with
    | nil => simp [chunkGo, ceilDiv_of_len_zero step hstep]
    | cons c rest =>
      by_cases hle : (c :: rest).length ≤ step
      · rw [chunkGo, if_pos hle]
        simp only [List.length_cons, List.length_nil, ceilDiv]
        simp only [List.length_cons] at hle
        symm
        apply Nat.div_eq_of_lt_le
        · omega
        · omega
      · rw [chunkGo, if_neg hle]
        have hgt : step < (c :: rest).length := Nat.lt_of_not_le hle
        rw [List.length_cons,
          ih ((c :: rest).drop step) (by rw [List.length_drop]; simp only [List.length_cons] at *; omega),
          List.length_drop]
        simp only [List.length_cons] at hgt ⊢
        rw [ceilDiv, ceilDiv]
        have hnum : rest.length + 1 - step + step - 1 + step = rest.length + 1 + step - 1 := by
          omega
        rw [← Nat.add_div_right (rest.length + 1 - step + step - 1) (show 0 < step by omega),
          hnum]

/-- Every produced chunk has at most size characters. -/
theorem chunkGo_chunk_le (size step : ℕ) :
    ∀ (fuel : ℕ) (rem : List Char) (ch : List Char),
      ch ∈ chunkGo size step fuel rem → ch.length ≤ size := by
  intro fuel
  induction fuel with
  | zero =>
    intro rem ch hch
    cases rem <;> simp [chunkGo] at hch
  | succ fuel ih =>
    intro rem ch hch
    cases rem with
    | nil => simp [chunkGo] at hch
    | cons c rest =>
      by_cases hle : (c :: rest).length ≤ step
      · rw [chunkGo, if_pos hle] at hch
        rcases List.mem_cons.mp hch with rfl | hch
        · rw [List.length_take]
          exact Nat.min_le_left _ _
        · simp at hch
      · rw [chunkGo, if_neg hle] at hch
        rcases List.mem_cons.mp hch with rfl | hch
        · rw [List.length_take]
          exact Nat.min_le_left _ _
        · exact ih _ ch hch

/-- De-overlapping every chunk (head included) concatenates to the text
    with its first overlap characters dropped. -/
theorem chunkGo_deOv (size overlap : ℕ) (h : overlap < size) :
    ∀ (fuel : ℕ) (rem : List Char), rem.length ≤ fuel →
      ((chunkGo size (size - overlap) fuel rem).map (fun k => k.drop overlap)).flatten
        = rem.drop overlap := by
  intro fuel
  induction fuel with
  | zero =>
    intro rem hlen
    have hnil : rem = [] := List.length_eq_zero.mp (Nat.le_antisymm hlen (Nat.zero_le _))
    subst hnil
    simp [chunkGo]
  | succ fuel ih =>
    intro rem hlen
    cases rem with
    | nil => simp [chunkGo]
    | cons c rest =>
      have hdt : ((c :: rest).take size).drop overlap
          = ((c :: rest).drop overlap).take (size - overlap) := by
        rw [List.drop_take]
      by_cases hle : (c :: rest).length ≤ size - overlap
      · rw [chunkGo, if_pos hle]
        simp only [List.map_cons, List.map_nil, List.flatten_cons, List.flatten_nil,
          List.append_nil]
        rw [hdt]
        apply List.take_of_length_le
        rw [List.length_drop]
        simp only [List.length_cons] at *
        omega
      · rw [chunkGo, if_neg hle]
        simp only [List.map_cons, List.flatten_cons]
        rw [hdt, ih ((c :: rest).drop (size - overlap))
          (by rw [List.length_drop]; simp only [List.length_cons] at *; omega)]
        rw [List.drop_drop]
        have h1 : size - overlap + overlap = size := by omega
        rw [h1]
        have h2 : (c :: rest).drop size = ((c :: rest).drop overlap).drop (size - overlap) := by
          rw [List.drop_drop]
          congr 1
          omega
        rw [h2]
        exact List.take_append_drop _ _

/-- Reconstruction: the first chunk followed by the de-overlapped later
    chunks is the whole text. -/
theorem chunkGo_reconstruct (size overlap : ℕ) (h : overlap < size) :
    ∀ (fuel : ℕ) (rem : List Char), rem.length ≤ fuel →
      deOverlap overlap (chunkGo size (size - overlap) fuel rem) = rem := by
  intro fuel
  induction fuel with
  | zero =>
    intro rem hlen
    have hnil : rem = [] := List.length_eq_zero.mp (Nat.le_antisymm hlen (Nat.zero_le _))
    subst hnil
    simp [chunkGo, deOverlap]
  | succ fuel ih =>
    intro rem hlen
    cases rem with
    | nil => simp [chunkGo, deOverlap]
    | cons c rest =>
      by_cases hle : (c :: rest).length ≤ size - overlap
      · rw [chunkGo, if_pos hle]
        rw [deOverlap]
        simp only [List.map_nil, List.flatten_nil, List.append_nil]
        apply List.take_of_length_le
        simp only [List.length_cons] at *
        omega
      · rw [chunkGo, if_neg hle]
        rw [deOverlap]
        rw [chunkGo_deOv size overlap h fuel ((c :: rest).drop (size - overlap))
          (by rw [List.length_drop]; simp only [List.length_cons] at *; omega)]
        rw [List.drop_drop]
        have h1 : size - overlap + overlap = size := by omega
        rw [h1]
        exact List.take_append_drop _ _

/-- Claim C8, counterexample: with size 3 and overlap 2 on ten characters
    the chunker emits 10 chunks while the claimed formula
    ceil((len-overlap)/(size-overlap)) gives 8; the counts differ by 2,
    outside the claimed ±1 tolerance. -/
theorem chunk_count_formula_off_by_two :
    (sliding_window_chunks (List.replicate 10 'a') 3 2).length = 10
    ∧ ceilDiv ((List.replicate 10 'a' : List Char).length - 2) (3 - 2) = 8
    ∧ ¬ ((sliding_window_chunks (List.replicate 10 'a') 3 2).length
          ≤ ceilDiv ((List.replicate 10 'a' : List Char).length - 2) (3 - 2) + 1
        ∧ ceilDiv ((List.replicate 10 'a' : List Char).length - 2) (3 - 2)
          ≤ (sliding_window_chunks (List.replicate 10 'a') 3 2).length + 1) := by
  refine ⟨by decide, by decide, ?_⟩
  decide

/-- Claim C8 as amended (corrected): for overlap < size the chunk count is
    exactly ceil(len/(size-overlap)) over the normalized length (the
    claimed ceil((len-overlap)/(size-overlap)) can be off by more than one
    when 2*overlap exceeds size); every chunk is at most size characters;
    and the first chunk followed by every later chunk stripped of its first
    overlap characters reconstructs the normalized text exactly. -/
theorem chunker_properties (txt : List Char) (size overlap : ℕ)
    (h : overlap < size) :
    (sliding_window_chunks txt size overlap).length
        = ceilDiv (chunkNorm txt).length (size - overlap)
    ∧ (∀ ch ∈ sliding_window_chunks txt size overlap, ch.length ≤ size)
    ∧ deOverlap overlap (sliding_window_chunks txt size overlap) = chunkNorm txt := by
  refine ⟨?_, ?_, ?_⟩
  · exact chunkGo_length size (size - overlap) (by omega) _ _ (le_refl _)
  · intro ch hch
    exact chunkGo_chunk_le size (size - overlap) _ _ ch hch
  · exact chunkGo_reconstruct size overlap h _ _ (le_refl _)

/-- Witness for chunker_properties on a concrete sentence with size 10 and
    overlap 3. -/
theorem chunker_properties_witness :
    (sliding_window_chunks (lc ("the quick brown fox jumps")) 10 3).length
        = ceilDiv (chunkNorm (lc ("the quick brown fox jumps"))).length (10 - 3)
    ∧ (∀ ch ∈ sliding_window_chunks (lc ("the quick brown fox jumps")) 10 3,
        ch.length ≤ 10)
    ∧ deOverlap 3 (sliding_window_chunks (lc ("the quick brown fox jumps")) 10 3)
        = chunkNorm (lc ("the quick brown fox jumps")) :=
  chunker_properties (lc ("the quick brown fox jumps")) 10 3 (by decide)

/-- Stable descending insertion preserves descending sortedness. -/
theorem insDesc_pairwise {α : Type} (key : α → ℚ) (x : α) :
    ∀ l : List α, l.Pairwise (fun a b => key b ≤ key a) →
      (insDesc key x l).Pairwise (fun a b => key b ≤ key a) := by
  intro l
  induction l with
  | nil => intro _; simp [insDesc]
  | cons y ys ih =>
    intro hp
    rcases List.pairwise_cons.mp hp with ⟨hy, hys⟩
    by_cases h : key x ≥ key y
    · rw [insDesc, if_pos h]
      refine List.pairwise_cons.mpr ⟨?_, hp⟩
      intro z hz
      rcases List.mem_cons.mp hz with rfl | hz
      · exact h
      · exact le_trans (hy z hz) h
    · rw [insDesc, if_neg h]
      refine List.pairwise_cons.mpr ⟨?_, ih hys⟩
      intro z hz
      have hz2 := (insDesc_perm key x ys).mem_iff.mp hz
      rcases List.mem_cons.mp hz2 with rfl | hz2
      · exact le_of_lt (lt_of_not_ge h)
      · exact hy z hz2

/-- The stable descending sort is sorted by descending key. -/
theorem sortDesc_sorted {α : Type} (key : α → ℚ) :
    ∀ l : List α, (sortDesc key l).Pairwise (fun a b => key b ≤ key a) := by
  intro l
  induction l with
  | nil => simp [sortDesc]
  | cons x xs ih => exact insDesc_pairwise key x (sortDesc key xs) ih

/-- Everything kept in the first n sorted entries dominates everything
    dropped. -/
theorem sortDesc_take_dominates {α : Type} (key : α → ℚ) (n : ℕ) (l : List α) :
    ∀ a ∈ (sortDesc key l).take n, ∀ b ∈ (sortDesc key l).drop n, key b ≤ key a := by
  have hp := sortDesc_sorted key l
  rw [← List.take_append_drop n (sortDesc key l)] at hp
  exact (List.pairwise_append.mp hp).2.2

/-- Occurrence counting distributes over the subgoal accumulation. -/
theorem flatMap_count (g : List Char → List Doc) :
    ∀ (l : List (List Char)) (d : Doc),
      (l.flatMap g).count d = (l.map (fun x => (g x).count d)).sum := by
  intro l
  induction l with
  | nil => intro d; simp
  | cons x xs ih =>
    intro d
    simp [List.flatMap_cons, List.count_append, ih d]

/-- Claim C9, counterexample: the per-subgoal re-rank keys on the keyword
    bonus alone, not on the bonus added to the hit's relevance.  On a
    two-chunk corpus the hybrid search ranks docB (merged score 9, no
    keyword, bonus 0) above docA (merged score 1, an "angle" keyword,
    bonus 1); the relevance-plus-bonus key of the claim keeps [docB, docA]
    because 9 + 0 > 1 + 1, but the code, whose hits carry no score by the
    time of the re-rank, keeps [docA, docB]. -/
theorem rerank_bonus_only_not_relevance :
    search 1 (fun _ _ => 50) 4 [docA, docB] [(9, 1), (1, 0)] [] [] = [docB, docA]
    ∧ relCE docA + bias docA < relCE docB + bias docB
    ∧ claimedKeptFor relCE [docB, docA] = [docB, docA]
    ∧ keptFor (fun _ => search 1 (fun _ _ => 50) 4 [docA, docB] [(9, 1), (1, 0)] [] [])
        (lc ("q")) = [docA, docB]
    ∧ keptFor (fun _ => search 1 (fun _ _ => 50) 4 [docA, docB] [(9, 1), (1, 0)] [] [])
        (lc ("q"))
        ≠ claimedKeptFor relCE
            (search 1 (fun _ _ => 50) 4 [docA, docB] [(9, 1), (1, 0)] [] []) := by
  have hc : mergeById (vecHitsOf 4 [docA, docB] [(9, 1), (1, 0)] ++ lexHitsOf 4 [] [])
      = [{ score := 9, doc := docB }, { score := 1, doc := docA }] := by
    decide
  have hm := mmrAux_one_eq_sortDesc (fun _ _ => 50) 4 2
    [{ score := 9, doc := docB }, { score := 1, doc := docA }] [] 0 (by decide) (by decide)
  have hs : search 1 (fun _ _ => 50) 4 [docA, docB] [(9, 1), (1, 0)] [] [] = [docB, docA] := by
    show mmr 1 (fun _ _ => 50) 4 (mergeById (vecHitsOf 4 [docA, docB] [(9, 1), (1, 0)]
        ++ lexHitsOf 4 [] [])) = [docB, docA]
    rw [hc]
    show mmrAux 1 (fun _ _ => 50) 4 2
        [{ score := 9, doc := docB }, { score := 1, doc := docA }] [] 0 = [docB, docA]
    rw [hm]
    decide
  have hbA : bias docA = 1 := by
    simp only [bias]
    rw [if_pos (by decide), if_neg (by decide)]
    norm_num
  have hbB : bias docB = 0 := by
    simp only [bias]
    rw [if_neg (by decide), if_neg (by decide)]
    norm_num
  have hrA : relCE docA = 1 := by
    simp [relCE]
    decide
  have hrB : relCE docB = 9 := by
    simp [relCE]
  have h2 : relCE docA + bias docA < relCE docB + bias docB := by
    rw [hrA, hbA, hrB, hbB]
    norm_num
  have h3 : claimedKeptFor relCE [docB, docA] = [docB, docA] := by
    simp only [claimedKeptFor, sortDesc, insDesc]
    rw [if_pos (by rw [hrA, hbA, hrB, hbB]; norm_num)]
    rfl
  have h4 : keptFor (fun _ => search 1 (fun _ _ => 50) 4 [docA, docB] [(9, 1), (1, 0)] [] [])
      (lc ("q")) = [docA, docB] := by
    show (sortDesc bias
        (search 1 (fun _ _ => 50) 4 [docA, docB] [(9, 1), (1, 0)] [] [])).take 3 = [docA, docB]
    rw [hs]
    simp only [sortDesc, insDesc]
    rw [if_neg (by rw [hbB, hbA]; norm_num)]
    rfl
  refine ⟨hs, h2, h3, h4, ?_⟩
  rw [h4, hs, h3]
  decide

/-- Claim C9 as amended (corrected): per subgoal, hybrid hits are re-ranked
    by the additive keyword bonus alone (set A worth +1.0, set B worth
    +0.5; the hits carry no relevance score at this point, so the bonus is
    the whole key, and within equal bonus the retrieval order stands,
    because the sort is stable) and only the top three are kept, each
    keeping a bonus at least that of every discarded hit; the per-subgoal
    keeps are accumulated by plain concatenation, so a document retrieved
    for several subgoals is counted once per subgoal - no cross-subgoal
    deduplication. -/
theorem retrieval_rerank_top3 (retrieve : List Char → List Doc)
    (query : List Char) :
    (agenticRun retrieve query).preCollected
        = (plan query).flatMap (fun sg => (sortDesc bias (retrieve sg)).take 3)
    ∧ (∀ sg : List Char, (keptFor retrieve sg).length ≤ 3)
    ∧ (∀ sg : List Char,
        (keptFor retrieve sg).Pairwise (fun a b => bias b ≤ bias a))
    ∧ (∀ sg : List Char, ∀ a ∈ keptFor retrieve sg,
        ∀ b ∈ (sortDesc bias (retrieve sg)).drop 3, bias b ≤ bias a)
    ∧ (∀ sg : List Char, List.Perm (sortDesc bias (retrieve sg)) (retrieve sg))
    ∧ (∀ d : Doc, (agenticRun retrieve query).preCollected.count d
        = ((plan query).map (fun sg => (keptFor retrieve sg).count d)).sum) := by
  refine ⟨rfl, ?_, ?_, ?_, ?_, ?_⟩
  · intro sg
    exact keptFor_length_le retrieve sg
  · intro sg
    exact List.Pairwise.sublist (List.take_sublist 3 _) (sortDesc_sorted bias (retrieve sg))
  · intro sg a ha b hb
    exact sortDesc_take_dominates bias 3 (retrieve sg) a ha b hb
  · intro sg
    exact sortDesc_perm bias (retrieve sg)
  · intro d
    exact flatMap_count (fun sg => keptFor retrieve sg) (plan query) d

/-- Prefix reflexivity for the boolean prefix test. -/
theorem prefBool_refl : ∀ p : List Char, p.isPrefixOf p = true := by
  intro p
  induction p with
  | nil => rfl
  | cons c cs ih => simp [List.isPrefixOf, ih]

/-- A prefix of a stays a prefix of a ++ b. -/
theorem prefBool_append (b : List Char) :
    ∀ p a : List Char, p.isPrefixOf a = true → p.isPrefixOf (a ++ b) = true := by
  intro p
  induction p with
  | nil =>
    intro a _
    cases a ++ b with
    | nil => rfl
    | cons y ys => rfl
  | cons c cs ih =>
    intro a hp
    cases a with
    | nil => simp [List.isPrefixOf] at hp
    | cons x xs =>
      simp only [List.isPrefixOf, Bool.and_eq_true] at hp
      simp only [List.cons_append, List.isPrefixOf, Bool.and_eq_true]
      exact ⟨hp.1, ih xs hp.2⟩

/-- A prefix of a concatenation is a prefix of the left part or extends it. -/
theorem prefBool_split :
    ∀ (a p b : List Char), p.isPrefixOf (a ++ b) = true →
      p.isPrefixOf a = true ∨ ∃ q, p = a ++ q ∧ q.isPrefixOf b = true := by
  intro a
  induction a with
  | nil =>
    intro p b hp
    exact Or.inr ⟨p, rfl, hp⟩
  | cons x xs ih =>
    intro p b hp
    cases p with
    | nil => exact Or.inl rfl
    | cons c cs =>
      simp only [List.cons_append, List.isPrefixOf, Bool.and_eq_true] at hp
      rcases ih cs b hp.2 with h1 | ⟨q, rfl, hq⟩
      · exact Or.inl (by simp [List.isPrefixOf, hp.1, h1])
      · refine Or.inr ⟨q, ?_, hq⟩
        have := of_decide_eq_true (by simpa using hp.1)
        rw [this]
        rfl

/-- Characters of a prefix are characters of the list. -/
theorem prefBool_mem :
    ∀ (p s : List Char), p.isPrefixOf s = true → ∀ x ∈ p, x ∈ s := by
  intro p
  induction p with
  | nil => intro s _ x hx; simp at hx
  | cons c cs ih =>
    intro s hp x hx
    cases s with
    | nil => simp [List.isPrefixOf] at hp
    | cons y ys =>
      simp only [List.isPrefixOf, Bool.and_eq_true] at hp
      have hcy : c = y := of_decide_eq_true (by simpa using hp.1)
      rcases List.mem_cons.mp hx with rfl | hx
      · rw [hcy]; exact List.mem_cons_self _ _
      · exact List.mem_cons_of_mem y (ih ys hp.2 x hx)

/-- A nonempty prefix pins the head of the list. -/
theorem prefBool_head (qh : Char) (qt s : List Char)
    (h : (qh :: qt).isPrefixOf s = true) : s.head? = some qh := by
  cases s with
  | nil => simp [List.isPrefixOf] at h
  | cons y ys =>
    simp only [List.isPrefixOf, Bool.and_eq_true] at h
    have : qh = y := of_decide_eq_true (by simpa using h.1)
    rw [this]
    rfl

/-- A prefix occurrence is a segment occurrence. -/
theorem subSeg_of_pref (p s : List Char) (h : p.isPrefixOf s = true) :
    subSeg p s = true := by
  cases s with
  | nil =>
    cases p with
    | nil => rfl
    | cons c cs => simp [List.isPrefixOf] at h
  | cons y ys => simp [subSeg, h]

/-- Segments of the tail are segments of the list. -/
theorem subSeg_tail (p : List Char) (c : Char) (rest : List Char)
    (h : subSeg p rest = true) : subSeg p (c :: rest) = true := by
  simp [subSeg, h]

/-- Segments of b are segments of a ++ b. -/
theorem subSeg_append_right (p b : List Char) :
    ∀ a : List Char, subSeg p b = true → subSeg p (a ++ b) = true := by
  intro a
  induction a with
  | nil => intro h; simpa using h
  | cons x xs ih =>
    intro h
    exact subSeg_tail p x (xs ++ b) (ih h)

/-- Segments of a are segments of a ++ b. -/
theorem subSeg_append_left (p b : List Char) :
    ∀ a : List Char, subSeg p a = true → subSeg p (a ++ b) = true := by
  intro a
  induction a with
  | nil =>
    intro h
    cases p with
    | nil => cases b with
      | nil => rfl
      | cons y ys => simp [subSeg]
    | cons c cs => simp [subSeg] at h
  | cons x xs ih =>
    intro h
    simp only [subSeg, Bool.or_eq_true] at h
    rcases h with h | h
    · rw [List.cons_append]
      exact subSeg_of_pref _ _ (by
        have := prefBool_append b p (x :: xs) h
        simpa using this)
    · exact subSeg_tail p x (xs ++ b) (ih h)

/-- The empty string is the only segment of the empty string. -/
theorem subSeg_nil (p : List Char) (h : subSeg p [] = true) : p = [] := by
  cases p with
  | nil => rfl
  | cons c cs => simp [subSeg] at h

/-- A nonempty list has a last element, and it is a member. -/
theorem lastOpt_mem {α : Type} : ∀ (l : List α) (x : α), lastOpt l = some x → x ∈ l := by
  intro l
  induction l with
  | nil => intro x hx; simp [lastOpt] at hx
  | cons c cs ih =>
    intro x hx
    cases cs with
    | nil =>
      simp only [lastOpt, Option.some.injEq] at hx
      rw [hx]
      exact List.mem_cons_self _ _
    | cons d ds =>
      simp only [lastOpt] at hx
      exact List.mem_cons_of_mem c (ih x hx)

/-- lastOpt of a nonempty list is some value. -/
theorem lastOpt_isSome : ∀ (l : List α) (c : α), ∃ x, lastOpt (c :: l) = some x := by
  intro l
  induction l with
  | nil => intro c; exact ⟨c, rfl⟩
  | cons d ds ih =>
    intro c
    rcases ih d with ⟨x, hx⟩
    exact ⟨x, by simpa [lastOpt] using hx⟩

/-- Splitting a segment occurrence in a concatenation: it lies in one part
    or it spans the junction, making the last character of the left part
    and the first character of the right part characters of the pattern. -/
theorem subSeg_append_split :
    ∀ (a p b : List Char), subSeg p (a ++ b) = true →
      subSeg p a = true ∨ subSeg p b = true
      ∨ ((∃ x, lastOpt a = some x ∧ x ∈ p) ∧ (∃ y, b.head? = some y ∧ y ∈ p)) := by
  intro a
  induction a with
  | nil => intro p b h; exact Or.inr (Or.inl (by simpa using h))
  | cons c a2 ih =>
    intro p b h
    simp only [List.cons_append, subSeg, Bool.or_eq_true] at h
    rcases h with hpref | htail
    · cases p with
      | nil => exact Or.inl rfl
      | cons ph pt =>
        simp only [List.isPrefixOf, Bool.and_eq_true] at hpref
        have hphc : ph = c := of_decide_eq_true (by simpa using hpref.1)
        rcases prefBool_split a2 pt b hpref.2 with h1 | ⟨q, rfl, hq⟩
        · refine Or.inl (subSeg_of_pref _ _ ?_)
          simp [List.isPrefixOf, hphc, h1]
        · cases q with
          | nil =>
            refine Or.inl (subSeg_of_pref _ _ ?_)
            simp only [List.append_nil]
            simp [List.isPrefixOf, hphc, prefBool_refl]
          | cons qh qt =>
            refine Or.inr (Or.inr ⟨?_, ?_⟩)
            · obtain ⟨x, hx1⟩ := lastOpt_isSome a2 c
              have hx2 : x ∈ c :: a2 := lastOpt_mem _ x hx1
              refine ⟨x, hx1, ?_⟩
              rcases List.mem_cons.mp hx2 with rfl | hx2
              · rw [hphc]; exact List.mem_cons_self _ _
              · exact List.mem_cons_of_mem ph
                  (List.mem_append.mpr (Or.inl hx2))
            · exact ⟨qh, prefBool_head qh qt b hq,
                List.mem_cons_of_mem ph (List.mem_append.mpr (Or.inr (List.mem_cons_self _ _)))⟩
    · rcases ih p b htail with h1 | h1 | ⟨⟨x, hx1, hx2⟩, hy⟩
      · exact Or.inl (subSeg_tail p c a2 h1)
      · exact Or.inr (Or.inl h1)
      · refine Or.inr (Or.inr ⟨⟨x, ?_, hx2⟩, hy⟩)
        cases a2 with
        | nil => simp [lastOpt] at hx1
        | cons d ds => simpa [lastOpt] using hx1

/-- Junction refutation by the last character of the left part. -/
theorem subSeg_split_left (a p b : List Char)
    (hguard : ∀ x, lastOpt a = some x → ¬ x ∈ p)
    (h : subSeg p (a ++ b) = true) :
    subSeg p a = true ∨ subSeg p b = true := by
  rcases subSeg_append_split a p b h with h1 | h1 | ⟨⟨x, hx1, hx2⟩, -⟩
  · exact Or.inl h1
  · exact Or.inr h1
  · exact absurd hx2 (hguard x hx1)

/-- Junction refutation by the first character of the right part. -/
theorem subSeg_split_right (a p b : List Char)
    (hguard : ∀ y, b.head? = some y → ¬ y ∈ p)
    (h : subSeg p (a ++ b) = true) :
    subSeg p a = true ∨ subSeg p b = true := by
  rcases subSeg_append_split a p b h with h1 | h1 | ⟨-, ⟨y, hy1, hy2⟩⟩
  · exact Or.inl h1
  · exact Or.inr h1
  · exact absurd hy2 (hguard y hy1)

/-- Lowercasing distributes over concatenation. -/
theorem lowAll_append (a b : List Char) : lowAll (a ++ b) = lowAll a ++ lowAll b :=
  List.map_append low a b

/-- A whitespace-headed text squeezes to a space-headed text. -/
theorem squeeze_ws_head :
    ∀ (rest : List Char) (c : Char), isWs c = true →
      ∃ l, squeeze (c :: rest) = ' ' :: l := by
  intro rest
  induction rest with
  | nil => intro c hc; exact ⟨[], by simp [squeeze, hc]⟩
  | cons d ds ih =>
    intro c hc
    by_cases hd : isWs d = true
    · rcases ih d hd with ⟨l, hl⟩
      refine ⟨l, ?_⟩
      rw [squeeze, if_pos hc]
      simp only [hd, if_pos]
      exact hl
    · refine ⟨squeeze (d :: ds), ?_⟩
      rw [squeeze, if_pos hc]
      simp [hd]

/-- Unfolding equation of subSeg on a nonempty text. -/
theorem subSeg_cons_eq (p : List Char) (c : Char) (rest : List Char) :
    subSeg p (c :: rest) = (p.isPrefixOf (c :: rest) || subSeg p rest) := rfl

/-- The empty pattern occurs in every text. -/
theorem subSeg_nil_pat : ∀ s : List Char, subSeg [] s = true := by
  intro s
  cases s with
  | nil => rfl
  | cons c rest => rfl

/-- Squeeze of a single whitespace character. -/
theorem squeeze_ws_nil (c : Char) (hc : isWs c = true) : squeeze [c] = [' '] := by
  simp [squeeze, hc]

/-- Squeeze drops a whitespace character followed by more whitespace. -/
theorem squeeze_ws_ws (c d : Char) (ds : List Char) (hc : isWs c = true)
    (hd : isWs d = true) : squeeze (c :: d :: ds) = squeeze (d :: ds) := by
  simp [squeeze, hc, hd]

/-- Squeeze turns a whitespace run head into one space. -/
theorem squeeze_ws_nws (c d : Char) (ds : List Char) (hc : isWs c = true)
    (hd : isWs d = false) : squeeze (c :: d :: ds) = ' ' :: squeeze (d :: ds) := by
  simp [squeeze, hc, hd]

/-- Squeeze keeps a non-whitespace character. -/
theorem squeeze_nws (c : Char) (rest : List Char) (hc : isWs c = false) :
    squeeze (c :: rest) = c :: squeeze rest := by
  cases rest with
  | nil => simp [squeeze, hc]
  | cons d ds => simp [squeeze, hc]

/-- Lowercasing fixes the space character at the head. -/
theorem lowAll_space_cons (l : List Char) : lowAll (' ' :: l) = ' ' :: lowAll l := by
  have h : low ' ' = ' ' := by decide
  simp [lowAll, h]

/-- A prefix without whitespace survives undoing the whitespace collapse
    (under lowercasing, which fixes whitespace characters). -/
theorem pref_low_squeeze :
    ∀ (s p : List Char), (∀ ch ∈ p, isWs ch = false) →
      p.isPrefixOf (lowAll (squeeze s)) = true →
      p.isPrefixOf (lowAll s) = true := by
  intro s
  induction s with
  | nil => intro p _ h; simpa [squeeze] using h
  | cons c rest ih =>
    intro p hp h
    by_cases hc : isWs c = true
    · rcases squeeze_ws_head rest c hc with ⟨l, hl⟩
      rw [hl] at h
      cases p with
      | nil => rfl
      | cons ph pt =>
        simp only [lowAll, List.map_cons, List.isPrefixOf, Bool.and_eq_true] at h
        have hph : ph = low ' ' := of_decide_eq_true (by simpa using h.1)
        have hws : isWs ph = true := by rw [hph]; decide
        exact absurd hws (by simp [hp ph (List.mem_cons_self _ _)])
    · rw [squeeze_nws c rest (by simpa using hc)] at h
      cases p with
      | nil => rfl
      | cons ph pt =>
        simp only [lowAll, List.map_cons, List.isPrefixOf, Bool.and_eq_true] at h ⊢
        refine ⟨h.1, ?_⟩
        have h2 := ih pt (fun ch hch => hp ch (List.mem_cons_of_mem ph hch))
          (by simpa [lowAll] using h.2)
        simpa [lowAll] using h2

/-- A whitespace-free pattern that is a prefix of a space-headed text is
    empty. -/
theorem pref_space_head (p : List Char) (hp : ∀ ch ∈ p, isWs ch = false)
    (l : List Char) (h : p.isPrefixOf (' ' :: l) = true) : p = [] := by
  cases p with
  | nil => rfl
  | cons ph pt =>
    simp only [List.isPrefixOf, Bool.and_eq_true] at h
    have hph : ph = ' ' := of_decide_eq_true (by simpa using h.1)
    have hws : isWs ph = true := by rw [hph]; decide
    exact absurd hws (by simp [hp ph (List.mem_cons_self _ _)])

/-- A whitespace-free segment of a space-headed text is empty or lies in
    the tail. -/
theorem subSeg_space_cons (p : List Char) (hp : ∀ ch ∈ p, isWs ch = false)
    (l : List Char) (h : subSeg p (' ' :: l) = true) :
    p = [] ∨ subSeg p l = true := by
  rw [subSeg_cons_eq] at h
  rcases Bool.or_eq_true _ _ |>.mp h with h1 | h1
  · exact Or.inl (pref_space_head p hp l h1)
  · exact Or.inr h1

/-- A segment without whitespace survives undoing the whitespace collapse. -/
theorem subSeg_low_squeeze (p : List Char) (hp : ∀ ch ∈ p, isWs ch = false) :
    ∀ s : List Char, subSeg p (lowAll (squeeze s)) = true →
      subSeg p (lowAll s) = true := by
  intro s
  induction s with
  | nil => intro h; simpa [squeeze] using h
  | cons c rest ih =>
    intro h
    by_cases hc : isWs c = true
    · cases rest with
      | nil =>
        rw [squeeze_ws_nil c hc, lowAll_space_cons] at h
        rcases subSeg_space_cons p hp _ h with rfl | h1
        · exact subSeg_nil_pat _
        · have : p = [] := subSeg_nil p (by simpa [lowAll] using h1)
          rw [this]
          exact subSeg_nil_pat _
      | cons d ds =>
        by_cases hd : isWs d = true
        · rw [squeeze_ws_ws c d ds hc hd] at h
          have h2 := ih h
          simp only [lowAll, List.map_cons] at h2 ⊢
          exact subSeg_tail p (low c) _ h2
        · rw [squeeze_ws_nws c d ds hc (by simpa using hd), lowAll_space_cons] at h
          rcases subSeg_space_cons p hp _ h with rfl | h1
          · exact subSeg_nil_pat _
          · have h2 := ih h1
            simp only [lowAll, List.map_cons] at h2 ⊢
            exact subSeg_tail p (low c) _ h2
    · rw [squeeze_nws c rest (by simpa using hc)] at h
      simp only [lowAll, List.map_cons] at h ⊢
      rw [subSeg_cons_eq] at h
      rcases Bool.or_eq_true _ _ |>.mp h with h1 | h1
      · cases p with
        | nil => exact subSeg_nil_pat _
        | cons ph pt =>
          simp only [List.isPrefixOf, Bool.and_eq_true] at h1
          refine subSeg_of_pref _ _ ?_
          simp only [List.isPrefixOf, Bool.and_eq_true]
          refine ⟨h1.1, ?_⟩
          have h3 := pref_low_squeeze rest pt
            (fun ch hch => hp ch (List.mem_cons_of_mem ph hch))
            (by simpa [lowAll] using h1.2)
          simpa [lowAll] using h3
      · exact subSeg_tail p (low c) _ (ih h1)

/-- Python strip only removes characters at the two ends. -/
theorem pyStrip_decomp (s : List Char) : ∃ a b, s = a ++ pyStrip s ++ b := by
  have h1 : s = s.takeWhile (fun c => isWs c) ++ lstrip s := by
    rw [lstrip]
    exact (List.takeWhile_append_dropWhile _ _).symm
  have h2 : lstrip s = pyStrip s
      ++ ((lstrip s).reverse.takeWhile (fun c => isWs c)).reverse := by
    rw [pyStrip]
    have h3 : (lstrip s).reverse
        = (lstrip s).reverse.takeWhile (fun c => isWs c)
          ++ (lstrip s).reverse.dropWhile (fun c => isWs c) :=
      (List.takeWhile_append_dropWhile _ _).symm
    calc lstrip s = (lstrip s).reverse.reverse := (List.reverse_reverse _).symm
    _ = ((lstrip s).reverse.takeWhile (fun c => isWs c)
          ++ (lstrip s).reverse.dropWhile (fun c => isWs c)).reverse := by rw [← h3]
    _ = ((lstrip s).reverse.dropWhile (fun c => isWs c)).reverse
          ++ ((lstrip s).reverse.takeWhile (fun c => isWs c)).reverse := by
        rw [List.reverse_append]
  refine ⟨s.takeWhile (fun c => isWs c),
    ((lstrip s).reverse.takeWhile (fun c => isWs c)).reverse, ?_⟩
  calc s = s.takeWhile (fun c => isWs c) ++ lstrip s := h1
  _ = s.takeWhile (fun c => isWs c) ++ (pyStrip s
        ++ ((lstrip s).reverse.takeWhile (fun c => isWs c)).reverse) := by rw [← h2]
  _ = s.takeWhile (fun c => isWs c) ++ pyStrip s
        ++ ((lstrip s).reverse.takeWhile (fun c => isWs c)).reverse := by
      rw [List.append_assoc]

/-- A segment of the stripped text is a segment of the text. -/
theorem subSeg_low_strip (p s : List Char)
    (h : subSeg p (lowAll (pyStrip s)) = true) :
    subSeg p (lowAll s) = true := by
  obtain ⟨a, b, hs⟩ := pyStrip_decomp s
  rw [hs, List.append_assoc, lowAll_append, lowAll_append]
  exact subSeg_append_right _ _ _ (subSeg_append_left _ _ _ h)

/-- A whitespace-free segment of a rendered snippet occurs in the raw
    evidence text. -/
theorem subSeg_snippet (p : List Char) (hp : ∀ ch ∈ p, isWs ch = false)
    (ev : Doc) (h : subSeg p (lowAll (snippetOf ev)) = true) :
    subSeg p (lowAll ev.text) = true := by
  rw [snippetOf] at h
  exact subSeg_low_strip p ev.text (subSeg_low_squeeze p hp (pyStrip ev.text) h)

/-- Lowercasing distributes over the newline join. -/
theorem lowAll_joinNl : ∀ ls : List (List Char),
    lowAll (joinNl ls) = joinNl (ls.map lowAll) := by
  intro ls
  induction ls with
  | nil => rfl
  | cons l ls2 ih =>
    cases ls2 with
    | nil => rfl
    | cons m ms =>
      show lowAll (l ++ '\n' :: joinNl (m :: ms))
        = lowAll l ++ '\n' :: joinNl ((m :: ms).map lowAll)
      rw [lowAll_append, ← ih]
      congr 1

/-- Lowercasing distributes over the space join. -/
theorem lowAll_joinSp : ∀ ls : List (List Char),
    lowAll (joinSp ls) = joinSp (ls.map lowAll) := by
  intro ls
  induction ls with
  | nil => rfl
  | cons l ls2 ih =>
    cases ls2 with
    | nil => rfl
    | cons m ms =>
      show lowAll (l ++ ' ' :: joinSp (m :: ms))
        = lowAll l ++ ' ' :: joinSp ((m :: ms).map lowAll)
      rw [lowAll_append, ← ih]
      congr 1

/-- A newline-free nonempty segment of a newline join lies inside one of
    the joined lines. -/
theorem subSeg_joinNl (p : List Char) (hne : p ≠ []) (hnl : ¬ '\n' ∈ p) :
    ∀ ls : List (List Char), subSeg p (joinNl ls) = true →
      ∃ l ∈ ls, subSeg p l = true := by
  intro ls
  induction ls with
  | nil =>
    intro h
    exact absurd (subSeg_nil p h) hne
  | cons l ls2 ih =>
    intro h
    cases ls2 with
    | nil => exact ⟨l, List.mem_cons_self _ _, by simpa [joinNl] using h⟩
    | cons m ms =>
      have hsplit := subSeg_split_right l p ('\n' :: joinNl (m :: ms))
        (by
          intro y hy hmem
          have : y = '\n' := by
            simpa using hy.symm
          rw [this] at hmem
          exact hnl hmem)
        (by simpa [joinNl] using h)
      rcases hsplit with h1 | h1
      · exact ⟨l, List.mem_cons_self _ _, h1⟩
      · rw [subSeg_cons_eq] at h1
        rcases Bool.or_eq_true _ _ |>.mp h1 with h2 | h2
        · cases p with
          | nil => exact absurd rfl hne
          | cons ph pt =>
            have : ph = '\n' := by
              have := prefBool_head ph pt _ h2
              simpa using this.symm
            rw [this] at hnl
            exact absurd (List.mem_cons_self _ _) hnl
        · rcases ih h2 with ⟨l2, hl2, hseg⟩
          exact ⟨l2, List.mem_cons_of_mem l hl2, hseg⟩

/-- A segment of one joined element is a segment of the space join. -/
theorem subSeg_mem_joinSp (p : List Char) :
    ∀ (ls : List (List Char)) (x : List Char), x ∈ ls → subSeg p x = true →
      subSeg p (joinSp ls) = true := by
  intro ls
  induction ls with
  | nil => intro x hx _; simp at hx
  | cons l ls2 ih =>
    intro x hx hseg
    rcases List.mem_cons.mp hx with rfl | hx
    · cases ls2 with
      | nil => simpa [joinSp] using hseg
      | cons m ms =>
        show subSeg p (x ++ ' ' :: joinSp (m :: ms)) = true
        exact subSeg_append_left _ _ _ hseg
    · cases ls2 with
      | nil => simp at hx
      | cons m ms =>
        show subSeg p (l ++ ' ' :: joinSp (m :: ms)) = true
        exact subSeg_append_right _ _ _ (subSeg_tail _ _ _ (ih x hx hseg))

/-- Guard builder from a computed last character. -/
theorem guard_of_lastOpt (a p : List Char) (c : Char) (hc : lastOpt a = some c)
    (hcp : ¬ c ∈ p) : ∀ x, lastOpt a = some x → ¬ x ∈ p := by
  intro x hx
  rw [hc] at hx
  rw [← Option.some.inj hx]
  exact hcp

/-- Guard builder from a computed head character. -/
theorem guard_of_head (b p : List Char) (c : Char) (hc : b.head? = some c)
    (hcp : ¬ c ∈ p) : ∀ y, b.head? = some y → ¬ y ∈ p := by
  intro y hy
  rw [hc] at hy
  rw [← Option.some.inj hy]
  exact hcp

/-- Split with the left junction character supplied explicitly. -/
theorem subSeg_split_left_last (a p b : List Char) (c : Char)
    (h : subSeg p (a ++ b) = true) (hc : lastOpt a = some c) (hcp : ¬ c ∈ p) :
    subSeg p a = true ∨ subSeg p b = true :=
  subSeg_split_left a p b (guard_of_lastOpt a p c hc hcp) h

/-- Split with the right junction character supplied explicitly. -/
theorem subSeg_split_right_head (a p b : List Char) (c : Char)
    (h : subSeg p (a ++ b) = true) (hc : b.head? = some c) (hcp : ¬ c ∈ p) :
    subSeg p a = true ∨ subSeg p b = true :=
  subSeg_split_right a p b (guard_of_head b p c hc hcp) h

/-- An occurrence of "angle" in a rendered evidence line whose citation
    fields are angle-free must lie inside the snippet, hence inside the
    raw evidence text. -/
theorem angle_in_evLine (ev : Doc)
    (hf : subSeg (lc ("angle")) (lowAll ev.meta.filename) = false)
    (hs : subSeg (lc ("angle")) (lowAll ev.meta.sectionName) = false)
    (hpg : subSeg (lc ("angle")) (lowAll ev.meta.page) = false)
    (h : subSeg (lc ("angle")) (lowAll (evLine ev)) = true) :
    subSeg (lc ("angle")) (lowAll ev.text) = true := by
  have hE : lowAll (evLine ev)
      = lowAll (lc ("- ")) ++ (lowAll (snippetOf ev)
        ++ (lowAll (lc ("  \n  _Source:_ ")) ++ lowAll (citeOf ev))) := by
    simp [evLine, lowAll_append]
  rw [hE] at h
  have step1 := subSeg_split_left _ _ _
    (guard_of_lastOpt _ _ ' ' (by decide) (by decide)) h
  rcases step1 with h1 | h1
  · exact absurd h1 (by decide)
  have step2 := subSeg_split_right_head _ _ _ ' ' h1 rfl (by decide)
  rcases step2 with h2 | h2
  · exact subSeg_snippet _ (by decide) ev h2
  have step3 := subSeg_split_left_last _ _ _ ' ' h2 (by decide) (by decide)
  rcases step3 with h3 | h3
  · exact absurd h3 (by decide)
  -- h3 : occurrence inside the lowered citation
  exfalso
  by_cases hse : ev.meta.sectionName.isEmpty = true
  · by_cases hpe : ev.meta.page.isEmpty = true
    · have hC : lowAll (citeOf ev)
          = lowAll (lc ("(")) ++ (lowAll ev.meta.filename ++ lowAll (lc (")"))) := by
        simp [citeOf, hse, hpe, lowAll_append]
      rw [hC] at h3
      rcases subSeg_split_left_last _ _ _ '(' h3 (by decide) (by decide) with h4 | h4
      · exact absurd h4 (by decide)
      rcases subSeg_split_right_head _ _ _ ')' h4 rfl (by decide) with h5 | h5
      · exact absurd h5 (by simp [hf])
      · exact absurd h5 (by decide)
    · have hC : lowAll (citeOf ev)
          = lowAll (lc ("(")) ++ (lowAll ev.meta.filename
            ++ (lowAll (lc (" • p.")) ++ (lowAll ev.meta.page ++ lowAll (lc (")"))))) := by
        simp [citeOf, hse, hpe, lowAll_append]
      rw [hC] at h3
      rcases subSeg_split_left_last _ _ _ '(' h3 (by decide) (by decide) with h4 | h4
      · exact absurd h4 (by decide)
      rcases subSeg_split_right_head _ _ _ ' ' h4 rfl (by decide) with h5 | h5
      · exact absurd h5 (by simp [hf])
      rcases subSeg_split_left_last _ _ _ '.' h5 (by decide) (by decide) with h6 | h6
      · exact absurd h6 (by decide)
      rcases subSeg_split_right_head _ _ _ ')' h6 rfl (by decide) with h7 | h7
      · exact absurd h7 (by simp [hpg])
      · exact absurd h7 (by decide)
  · by_cases hpe : ev.meta.page.isEmpty = true
    · have hC : lowAll (citeOf ev)
          = lowAll (lc ("(")) ++ (lowAll ev.meta.filename
            ++ (lowAll (lc (" • ")) ++ (lowAll ev.meta.sectionName ++ lowAll (lc (")"))))) := by
        simp [citeOf, hse, hpe, lowAll_append]
      rw [hC] at h3
      rcases subSeg_split_left_last _ _ _ '(' h3 (by decide) (by decide) with h4 | h4
      · exact absurd h4 (by decide)
      rcases subSeg_split_right_head _ _ _ ' ' h4 rfl (by decide) with h5 | h5
      · exact absurd h5 (by simp [hf])
      rcases subSeg_split_left_last _ _ _ ' ' h5 (by decide) (by decide) with h6 | h6
      · exact absurd h6 (by decide)
      rcases subSeg_split_right_head _ _ _ ')' h6 rfl (by decide) with h7 | h7
      · exact absurd h7 (by simp [hs])
      · exact absurd h7 (by decide)
    · have hC : lowAll (citeOf ev)
          = lowAll (lc ("(")) ++ (lowAll ev.meta.filename
            ++ (lowAll (lc (" • ")) ++ (lowAll ev.meta.sectionName
              ++ (lowAll (lc (" • p.")) ++ (lowAll ev.meta.page ++ lowAll (lc (")"))))))) := by
        simp [citeOf, hse, hpe, lowAll_append]
      rw [hC] at h3
      rcases subSeg_split_left_last _ _ _ '(' h3 (by decide) (by decide) with h4 | h4
      · exact absurd h4 (by decide)
      rcases subSeg_split_right_head _ _ _ ' ' h4 rfl (by decide) with h5 | h5
      · exact absurd h5 (by simp [hf])
      rcases subSeg_split_left_last _ _ _ ' ' h5 (by decide) (by decide) with h6 | h6
      · exact absurd h6 (by decide)
      rcases subSeg_split_right_head _ _ _ ' ' h6 rfl (by decide) with h7 | h7
      · exact absurd h7 (by simp [hs])
      rcases subSeg_split_left_last _ _ _ '.' h7 (by decide) (by decide) with h8 | h8
      · exact absurd h8 (by decide)
      rcases subSeg_split_right_head _ _ _ ')' h8 rfl (by decide) with h9 | h9
      · exact absurd h9 (by simp [hpg])
      · exact absurd h9 (by decide)

/-- An occurrence of "angle" in the synthesized draft over angle-free
    citation metadata forces an occurrence in the joined evidence texts. -/
theorem angle_in_draft (query : List Char) (evs : List Doc)
    (hmeta : ∀ ev ∈ evs, subSeg (lc ("angle")) (lowAll ev.meta.filename) = false
      ∧ subSeg (lc ("angle")) (lowAll ev.meta.sectionName) = false
      ∧ subSeg (lc ("angle")) (lowAll ev.meta.page) = false)
    (h : subSeg (lc ("angle")) (lowAll (synthesize_answer query evs)) = true) :
    subSeg (lc ("angle")) (lowAll (joinSp (evs.map (fun e => e.text)))) = true := by
  rw [synthesize_answer, lowAll_joinNl] at h
  obtain ⟨lL, hmem, hseg⟩ := subSeg_joinNl (lc ("angle")) (by decide) (by decide) _ h
  rcases List.mem_map.mp hmem with ⟨l0, hl0, rfl⟩
  simp only [List.cons_append, List.nil_append, List.mem_cons, List.mem_append,
    List.mem_map, List.mem_singleton] at hl0
  rcases hl0 with rfl | rfl | ⟨ev, hev, rfl⟩ | rfl | rfl | h0
  · exact absurd hseg (by decide)
  · exact absurd hseg (by decide)
  · have hmf := hmeta ev (List.mem_of_mem_take hev)
    have htext := angle_in_evLine ev hmf.1 hmf.2.1 hmf.2.2 hseg
    rw [lowAll_joinSp]
    exact subSeg_mem_joinSp (lc ("angle")) _ (lowAll ev.text)
      (List.mem_map.mpr ⟨ev.text, List.mem_map.mpr ⟨ev, List.mem_of_mem_take hev, rfl⟩, rfl⟩)
      htext
  · exact absurd hseg (by decide)
  · exact absurd hseg (by decide)
  · simp at h0

/-- Core of claim C10: over angle-free citation metadata, the reflector
    applied to the freshly synthesized draft records exactly the
    no-evidence issue and nothing else. -/
theorem reflect_angle_core (query : List Char) (evs : List Doc)
    (hmeta : ∀ ev ∈ evs, subSeg (lc ("angle")) (lowAll ev.meta.filename) = false
      ∧ subSeg (lc ("angle")) (lowAll ev.meta.sectionName) = false
      ∧ subSeg (lc ("angle")) (lowAll ev.meta.page) = false) :
    (reflect (synthesize_answer query evs) evs).2
        = (if evs.isEmpty then [lc ("No evidence retrieved.")] else [])
    ∧ ((reflect (synthesize_answer query evs) evs).1 = false ↔ evs = []) := by
  have hcond : (subSeg (lc ("angle")) (lowAll (synthesize_answer query evs))
      && ! subSeg (lc ("angle"))
        (lowAll (joinSp (evs.map (fun e => e.text))))) = false := by
    by_cases hd : subSeg (lc ("angle")) (lowAll (synthesize_answer query evs)) = true
    · simp [hd, angle_in_draft query evs hmeta hd]
    · rw [Bool.not_eq_true] at hd
      simp [hd]
  constructor
  · simp only [reflect, hcond]
    cases evs with
    | nil => simp
    | cons e es => simp
  · simp only [reflect, hcond]
    cases evs with
    | nil => simp
    | cons e es => simp

/-- Claim C10 (confirmed): when no cited metadata value contains "angle",
    the reflector applied to the draft synthesized from the same evidence
    reports an issue exactly when the evidence list is empty - the issue
    list is precisely the no-evidence issue then and empty otherwise, the
    angles-not-grounded issue being unreachable - and consequently the
    agent loop runs its refinement retrieval exactly when zero evidence was
    collected. -/
theorem reflector_issue_iff_no_evidence (query : List Char) (evs : List Doc)
    (hmeta : ∀ ev ∈ evs, subSeg (lc ("angle")) (lowAll ev.meta.filename) = false
      ∧ subSeg (lc ("angle")) (lowAll ev.meta.sectionName) = false
      ∧ subSeg (lc ("angle")) (lowAll ev.meta.page) = false) :
    (reflect (synthesize_answer query evs) evs).2
        = (if evs.isEmpty then [lc ("No evidence retrieved.")] else [])
    ∧ ((reflect (synthesize_answer query evs) evs).1 = false ↔ evs = [])
    ∧ (∀ retrieve : List Char → List Doc,
        (∀ (sg : List Char) (d : Doc), d ∈ retrieve sg →
          subSeg (lc ("angle")) (lowAll d.meta.filename) = false
          ∧ subSeg (lc ("angle")) (lowAll d.meta.sectionName) = false
          ∧ subSeg (lc ("angle")) (lowAll d.meta.page) = false) →
        ((agenticRun retrieve query).refined = true
          ↔ (agenticRun retrieve query).preCollected = [])) := by
  obtain ⟨h1, h2⟩ := reflect_angle_core query evs hmeta
  refine ⟨h1, h2, ?_⟩
  intro retrieve hr
  have hpremeta : ∀ ev ∈ (plan query).flatMap (fun sg => keptFor retrieve sg),
      subSeg (lc ("angle")) (lowAll ev.meta.filename) = false
      ∧ subSeg (lc ("angle")) (lowAll ev.meta.sectionName) = false
      ∧ subSeg (lc ("angle")) (lowAll ev.meta.page) = false := by
    intro ev hev
    rcases List.mem_flatMap.mp hev with ⟨sg, hsg, hkept⟩
    rw [keptFor] at hkept
    have h3 : ev ∈ sortDesc bias (retrieve sg) := List.mem_of_mem_take hkept
    exact hr sg ev ((sortDesc_perm bias (retrieve sg)).mem_iff.mp h3)
  have hcore := reflect_angle_core query
    ((plan query).flatMap (fun sg => keptFor retrieve sg)) hpremeta
  have hrefl : (agenticRun retrieve query).refined
      = ! (reflect (synthesize_answer query
            ((plan query).flatMap (fun sg => keptFor retrieve sg)))
          ((plan query).flatMap (fun sg => keptFor retrieve sg))).1 := rfl
  have hpre : (agenticRun retrieve query).preCollected
      = (plan query).flatMap (fun sg => keptFor retrieve sg) := rfl
  rw [hrefl, hpre]
  rw [Bool.not_eq_true']
  exact hcore.2

/-- Witness for reflector_issue_iff_no_evidence on one concrete evidence
    document with angle-free metadata. -/
theorem reflector_issue_iff_no_evidence_witness :
    (reflect (synthesize_answer (lc ("how to shoot")) [docW]) [docW]).2
        = (if ([docW] : List Doc).isEmpty then [lc ("No evidence retrieved.")] else [])
    ∧ ((reflect (synthesize_answer (lc ("how to shoot")) [docW]) [docW]).1 = false
        ↔ ([docW] : List Doc) = [])
    ∧ (∀ retrieve : List Char → List Doc,
        (∀ (sg : List Char) (d : Doc), d ∈ retrieve sg →
          subSeg (lc ("angle")) (lowAll d.meta.filename) = false
          ∧ subSeg (lc ("angle")) (lowAll d.meta.sectionName) = false
          ∧ subSeg (lc ("angle")) (lowAll d.meta.page) = false) →
        ((agenticRun retrieve (lc ("how to shoot"))).refined = true
          ↔ (agenticRun retrieve (lc ("how to shoot"))).preCollected = [])) :=
  reflector_issue_iff_no_evidence (lc ("how to shoot")) [docW] (by decide)
